import Mathlib

/-! # StringToOffsetTable

A shallow embedding of `llvm/include/llvm/TableGen/StringToOffsetTable.h`:
the table that uniques strings into one aggregate buffer and emits that buffer
as C++ source text.

Conventions of the embedding.
* A `char` is a byte, `Fin 256`; a `std::string`, a `StringRef` and the text
  written to a `raw_ostream` are lists of bytes.
* `unsigned` has 32 bits: a value of type `unsigned` is a natural number below
  `2^32 = 4294967296`, the conversion of a `size_t` to `unsigned` and the
  arithmetic on `unsigned` are taken modulo `2^32` (`toUnsigned`). A `size_t`,
  the length of a string, is a natural number without bound.
* `StringMap<unsigned>` is an association list with unique keys; a new key is
  added at the end. The order of the entries is not observable by the class.
* An operation that can stop the program (fatal error, failed `assert`) yields a
  `Run`: how it ended, and the table and the sink as they were at that moment.
-/

namespace StringToOffsetTable

/-! ## Data model -/

/-- A `char`. -/
abbrev Byte := Fin 256

/-- Modelled from the spec: the enumeration `PrinterLanguage` of `PrinterTypes.h`,
which is not among the sources. The spec fixes one implemented variant
("generate C++ source") and leaves the others as a reserved extension point;
`other n` stands for any such further enumerator. -/
inductive PrinterLanguage where
  | PRINTER_LANG_CPP
  | other (n : Nat)
  deriving DecidableEq, Repr

/-- The class `StringToOffsetTable`: its three data members. -/
structure Table where
  PL : PrinterLanguage
  StringOffset : List (List Byte × Nat)
  AggregateString : List Byte
  deriving DecidableEq, Repr

/-- The constructor `StringToOffsetTable(PrinterLanguage PL)`. -/
def Table.mk1 (PL : PrinterLanguage) : Table :=
  { PL := PL, StringOffset := [], AggregateString := [] }

/-- The constructor `StringToOffsetTable()`, which selects `PRINTER_LANG_CPP`. -/
def Table.mk0 : Table :=
  { PL := PrinterLanguage.PRINTER_LANG_CPP, StringOffset := [], AggregateString := [] }

/-- The value of type `unsigned` (32 bits) that a natural number gives: its
remainder modulo `2^32`. It models the conversion of `AggregateString.size()` to
`unsigned` and the wrap-around of the arithmetic on `unsigned`. -/
def toUnsigned (n : Nat) : Nat := n % 4294967296

/-- The member `Empty()`: `StringOffset.empty()`. -/
def Empty (t : Table) : Bool := t.StringOffset.isEmpty

/-- The lookup of a key in the string map (`StringMap::find`). -/
def find (m : List (List Byte × Nat)) (Str : List Byte) : Option Nat :=
  match m with
  | [] => none
  | (k, v) :: rest => if k = Str then some v else find rest Str

/-- The member `GetOrAddStringOffset(Str, appendZero)`: `StringOffset.insert` of
the pair `(Str, AggregateString.size())` leaves the map alone when the key is
present and adds the pair otherwise, the size being converted to the `unsigned`
value type of the map; only in the latter case the string, and a zero byte when
`appendZero` is set, are appended to the aggregate. The value returned is the
one stored in the map. The result is the returned offset and the table after
the call. (In the source `appendZero` defaults to `true`.) -/
def GetOrAddStringOffset (t : Table) (Str : List Byte) (appendZero : Bool) : Nat × Table :=
  match find t.StringOffset Str with
  | some off => (off, t)
  | none =>
    let off := toUnsigned t.AggregateString.length
    let agg := t.AggregateString ++ Str
    let agg := if appendZero then agg ++ [0] else agg
    (off, { t with StringOffset := t.StringOffset ++ [(Str, off)], AggregateString := agg })

/-- A sequence of `GetOrAddStringOffset` calls, each given by its two arguments,
applied in order to a table; the result is the list of the offsets returned, in
call order, and the final table. -/
def internAll (t : Table) : List (List Byte × Bool) → List Nat × Table
  | [] => ([], t)
  | (Str, appendZero) :: calls =>
    let r := GetOrAddStringOffset t Str appendZero
    let rs := internAll r.2 calls
    (r.1 :: rs.1, rs.2)

/-! ## Emission -/

/-- Modelled from the spec: the "printable characters" of the escaping
collaborator, which is not among the sources: the bytes `0x20 .. 0x7E`. -/
def isPrint (c : Byte) : Bool := 0x20 ≤ c.val && c.val ≤ 0x7E

/-- The `isdigit` of `<cctype>` on a byte: the characters `0 .. 9`. -/
def isdigit (c : Byte) : Bool := 48 ≤ c.val && c.val ≤ 57

/-- Modelled from the spec: the escaped form of one byte under
`raw_ostream::write_escaped`, which is not among the sources. The spec gives the
convention: printable characters pass through unchanged, special and
non-printable bytes become backslash sequences (backslash, tab, newline and
double quote get the two-character escapes `\\`, `\t`, `\n`, `\"`), and
every other byte is an octal escape of exactly three digits. -/
def escapeByte (c : Byte) : List Byte :=
  if c = 92 then [92, 92]
  else if c = 9 then [92, 116]
  else if c = 10 then [92, 110]
  else if c = 34 then [92, 34]
  else if isPrint c then [c]
  else [92,
        Fin.ofNat (48 + (c.val / 64) % 8),
        Fin.ofNat (48 + (c.val / 8) % 8),
        Fin.ofNat (48 + c.val % 8)]

/-- Modelled from the spec: `raw_ostream::write_escaped` on a string, which
escapes the bytes one after the other. -/
def write_escaped : List Byte → List Byte
  | [] => []
  | c :: rest => escapeByte c ++ write_escaped rest

/-- How an operation ended: it returned, it stopped the program in
`PrintFatalNote`, it stopped the program in a failed `assert`, or the model of
a loop was given too few iterations. -/
inductive Status where
  | returned
  | fatal (msg : String)
  | assertion (msg : String)
  | outOfFuel
  deriving DecidableEq, Repr

/-- The end of an operation: its status, the table and the output sink. -/
structure Run where
  status : Status
  table : Table
  O : List Byte
  deriving DecidableEq, Repr

/-- Sequencing of statements: the rest of the body runs only when the program
is still alive. -/
def Run.andThen (r : Run) (k : Table → List Byte → Run) : Run :=
  match r.status with
  | Status.returned => k r.table r.O
  | _ => r

/-- Modelled from the spec: `PrintFatalNote` of `llvm/TableGen/Error.h`, which
is not among the sources: "a fatal-error reporting function taking a message
string, which terminates the generation run and never returns". The diagnostic
goes to the error stream, not to the sink `O`. -/
def PrintFatalNote (msg : String) (t : Table) (O : List Byte) : Run :=
  { status := Status.fatal msg, table := t, O := O }

/-- The read `AggregateString[i]` of a `std::string`; the position `size()`
holds the terminating zero. -/
def charAt (s : List Byte) (i : Nat) : Byte := s.getD i 0

/-- The `for` loop of `EmitStringCPP` over the escaped `AggregateString`, with
the loop variables `i` and `CharsPrinted`, the bound `e` and the sink `O`. The
index `i` is an `unsigned`: `i + 1`, `i + 2`, `i + 3` and `++i` are taken modulo
`2^32`. `CharsPrinted` is reset as soon as it exceeds 70 and grows by at most 4
in between, so its `unsigned` arithmetic never wraps. The first argument bounds
the number of iterations. Each iteration is the loop body followed by the `++i`
of the loop header. -/
def EmitStringCPP.loop (AggregateString : List Byte) (e : Nat) :
    Nat → Nat → Nat → List Byte → Status × List Byte
  | 0, _, _, O => (Status.outOfFuel, O)
  | fuel + 1, i, CharsPrinted, O =>
    if i = e then (Status.returned, O)
    else
      let wrap := decide (CharsPrinted > 70)
      let O := if wrap then O ++ [34, 10, 32, 32, 32, 32, 34] else O
      let CharsPrinted := if wrap then 0 else CharsPrinted
      let O := O ++ [charAt AggregateString i]
      let CharsPrinted := CharsPrinted + 1
      if charAt AggregateString i ≠ 92 then
        EmitStringCPP.loop AggregateString e fuel (toUnsigned (i + 1)) CharsPrinted O
      else if ¬ (toUnsigned (i + 1) < AggregateString.length) then
        (Status.assertion "Incomplete escape sequence!", O)
      else if isdigit (charAt AggregateString (toUnsigned (i + 1))) then
        if ¬ (isdigit (charAt AggregateString (toUnsigned (i + 2))) ∧
              isdigit (charAt AggregateString (toUnsigned (i + 3)))) then
          (Status.assertion "Expected 3 digit octal escape!", O)
        else
          EmitStringCPP.loop AggregateString e fuel (toUnsigned (i + 4)) (CharsPrinted + 3)
            (O ++ [charAt AggregateString (toUnsigned (i + 1)),
                   charAt AggregateString (toUnsigned (i + 2)),
                   charAt AggregateString (toUnsigned (i + 3))])
      else
        EmitStringCPP.loop AggregateString e fuel (toUnsigned (i + 2)) (CharsPrinted + 1)
          (O ++ [charAt AggregateString (toUnsigned (i + 1))])

/-- The member `EmitStringCPP(O)`: the aggregate is replaced by its escaped
form, then written between double quotes after four spaces, the loop breaking
the literal. The bound `e` of the loop is the size of the escaped aggregate
converted to `unsigned`. The model allows for `size() + 1` iterations, which is
enough whenever the size fits in `unsigned` (every iteration advances `i`); a
run that would need more ends as `outOfFuel`, which says nothing about the
program. -/
def EmitStringCPP (t : Table) (O : List Byte) : Run :=
  let Str := write_escaped t.AggregateString
  let t := { t with AggregateString := Str }
  let O := O ++ [32, 32, 32, 32, 34]
  let r := EmitStringCPP.loop t.AggregateString (toUnsigned t.AggregateString.length)
    (t.AggregateString.length + 1) 0 0 O
  match r.1 with
  | Status.returned => { status := Status.returned, table := t, O := r.2 ++ [34] }
  | st => { status := st, table := t, O := r.2 }

/-- The member `EmitString(O)`: a `switch` on `PL` whose `default` label calls
`PrintFatalNote` and is written before the label `PRINTER_LANG_CPP`, without
a `break` between the two. -/
def EmitString (t : Table) (O : List Byte) : Run :=
  match t.PL with
  | PrinterLanguage.PRINTER_LANG_CPP => EmitStringCPP t O
  | _ =>
    (PrintFatalNote
      "No StringToOffsetTable method defined to emit the selected language.\n" t O).andThen
      EmitStringCPP

/-- The range-`for` loop of `EmitCharArray` over the characters that remain,
with the counter `Count` and the sink `O`; the result is the final sink. -/
def EmitCharArray.loop : List Byte → Nat → List Byte → List Byte
  | [], _, O => O
  | C :: rest, Count, O =>
    let O := O ++ [32, 39]
    let O := O ++ write_escaped [C]
    let O := O ++ [39, 44]
    let Count := Count + 1
    if Count > 14 then EmitCharArray.loop rest 0 (O ++ [10, 32])
    else EmitCharArray.loop rest Count O

/-- The member `EmitCharArray(O)`: the `assert` that the aggregate holds no
closing parenthesis, one space, the loop, one newline. -/
def EmitCharArray (t : Table) (O : List Byte) : Run :=
  if (41 : Byte) ∈ t.AggregateString then
    { status := Status.assertion "can't emit raw string with closing parens",
      table := t, O := O }
  else
    { status := Status.returned, table := t,
      O := EmitCharArray.loop t.AggregateString 0 (O ++ [32]) ++ [10] }

/-- One call of a public member of the class. -/
inductive Op where
  | Empty
  | GetOrAddStringOffset (Str : List Byte) (appendZero : Bool)
  | EmitString
  | EmitStringCPP
  | EmitCharArray
  deriving DecidableEq, Repr

/-- The effect of one member call on a table and a sink. -/
def runOp (t : Table) (O : List Byte) : Op → Run
  | Op.Empty => { status := Status.returned, table := t, O := O }
  | Op.GetOrAddStringOffset Str appendZero =>
    { status := Status.returned, table := (GetOrAddStringOffset t Str appendZero).2, O := O }
  | Op.EmitString => EmitString t O
  | Op.EmitStringCPP => EmitStringCPP t O
  | Op.EmitCharArray => EmitCharArray t O

/-- A sequence of member calls, in order; a call that stops the program ends
the sequence. -/
def runOps (t : Table) (O : List Byte) : List Op → Run
  | [] => { status := Status.returned, table := t, O := O }
  | op :: ops => (runOp t O op).andThen (fun t1 O1 => runOps t1 O1 ops)

/-! ## Reference definitions

The definitions below are not taken from the class: they say, in the words of
the specification, what the buffer and the emitted text are compared with. -/

/-- The bytes a first insertion appends: the string, then one zero byte when
the flag is set. -/
def block (c : List Byte × Bool) : List Byte :=
  c.1 ++ (if c.2 then [0] else [])

/-- The calls of a sequence that submit a string not in `seen` and not
submitted by an earlier call of the sequence, in order. -/
def firstOccurrences (seen : List (List Byte)) :
    List (List Byte × Bool) → List (List Byte × Bool)
  | [] => []
  | c :: calls =>
    if c.1 ∈ seen then firstOccurrences seen calls
    else c :: firstOccurrences (seen ++ [c.1]) calls

/-- The reference buffer of a call sequence: the concatenation, in order of
first occurrence, of each distinct string, followed by a zero byte exactly when
the flag of its first occurrence is set. -/
def referenceBuffer (calls : List (List Byte × Bool)) : List Byte :=
  ((firstOccurrences [] calls).map block).flatten

/-- An octal digit. -/
def isOctal (c : Byte) : Bool := 48 ≤ c.val && c.val ≤ 55

/-- A complete token of escaped text: one raw printable character other than
the backslash and the double quote, one of the two-character escapes, or a
backslash followed by exactly three octal digits. -/
def isToken (tok : List Byte) : Bool :=
  match tok with
  | [c] => isPrint c && c != 92 && c != 34
  | [b, d] => b == 92 && (d == 92 || d == 116 || d == 110 || d == 34)
  | [b, d1, d2, d3] => b == 92 && isOctal d1 && isOctal d2 && isOctal d3
  | _ => false

/-- Reading escaped text back: a character other than the backslash stands for
itself, the two-character escapes stand for backslash, tab, newline and double
quote, and a backslash with three octal digits stands for the byte of that
value. Text that is not made of such tokens is rejected. -/
def unescape : List Byte → Option (List Byte)
  | [] => some []
  | c :: rest =>
    if c ≠ 92 then (unescape rest).map (fun r => c :: r)
    else
      match rest with
      | [] => none
      | d :: rest1 =>
        if d = 92 then (unescape rest1).map (fun r => 92 :: r)
        else if d = 116 then (unescape rest1).map (fun r => 9 :: r)
        else if d = 110 then (unescape rest1).map (fun r => 10 :: r)
        else if d = 34 then (unescape rest1).map (fun r => 34 :: r)
        else
          match rest1 with
          | d2 :: d3 :: rest2 =>
            if isOctal d && isOctal d2 && isOctal d3 &&
                decide ((d.val - 48) * 64 + (d2.val - 48) * 8 + (d3.val - 48) < 256) then
              (unescape rest2).map
                (fun r => Fin.ofNat ((d.val - 48) * 64 + (d2.val - 48) * 8 + (d3.val - 48)) :: r)
            else none
          | _ => none

/-- The physical lines of a text: the pieces between newline characters. -/
def splitLines : List Byte → List (List Byte)
  | [] => [[]]
  | c :: rest =>
    if c = 10 then [] :: splitLines rest
    else
      match splitLines rest with
      | [] => [[c]]
      | l :: ls => (c :: l) :: ls

/-- The fragment of one output line: the text between the opening delimiter
(four spaces and a double quote) and the closing double quote. -/
def unquoteLine (l : List Byte) : Option (List Byte) :=
  if l.take 5 = [32, 32, 32, 32, 34] ∧ 6 ≤ l.length ∧ l.getLast? = some 34 then
    some ((l.drop 5).dropLast)
  else none

/-- All the elements of a list of options, when none is missing. -/
def allSome : List (Option (List Byte)) → Option (List (List Byte))
  | [] => some []
  | none :: _ => none
  | some a :: rest => (allSome rest).map (fun r => a :: r)

/-- The fragments of a text written by strategy A: each line is a fragment
between its delimiters; consecutive fragments are thus separated by closing
quote, newline, four spaces, opening quote. -/
def fragments (text : List Byte) : Option (List (List Byte)) :=
  allSome ((splitLines text).map unquoteLine)

/-- The text a run wrote: what the sink holds beyond its initial content. -/
def written (O : List Byte) (r : Run) : List Byte := r.O.drop O.length

/-- The separator written between two fragments: closing quote, newline, four
spaces, opening quote. -/
def separator : List Byte := [34, 10, 32, 32, 32, 32, 34]

/-- Fragments joined by the separator. -/
def joinFragments : List (List Byte) → List Byte
  | [] => []
  | [f] => f
  | f :: g :: rest => f ++ separator ++ joinFragments (g :: rest)

/-- A token put in front of the first group. -/
def consHead (tok : List Byte) : List (List (List Byte)) → List (List (List Byte))
  | [] => [[tok]]
  | g :: gs => (tok :: g) :: gs

/-- The grouping of a token sequence into fragments that the line-length
counter induces: a new group is opened before a token when the counter
exceeds 70, and a token advances the counter by its width. -/
def groupTokens : Nat → List (List Byte) → List (List (List Byte))
  | _, [] => [[]]
  | cp, tok :: toks =>
    if cp > 70 then [] :: consHead tok (groupTokens tok.length toks)
    else consHead tok (groupTokens (cp + tok.length) toks)

/-! ## Invariants -/

/-- The invariant that ties the map to the buffer: every recorded offset is
the `unsigned` value of a position at which the buffer holds the key. -/
def Inv (t : Table) : Prop :=
  ∀ e ∈ t.StringOffset, ∃ p, toUnsigned p = e.2 ∧
    p + e.1.length ≤ t.AggregateString.length ∧
    (t.AggregateString.drop p).take e.1.length = e.1

/-- The shape of the text the loop of `EmitStringCPP` writes from a state with
counter `cp` on: fragments joined by the separator, the first one continuing
the fragment that is open. The first fragment, with the `cp` characters already
in it, holds at most 74 characters, and more than 70 when another fragment
follows; every later fragment holds at most 74 characters, and more than 70 when
another one follows; no fragment holds a newline. -/
def Segments (cp : Nat) (text : List Byte) : Prop :=
  ∃ g gs, text = joinFragments (g :: gs) ∧ g.length + cp ≤ 74 ∧
    (gs ≠ [] → 70 < g.length + cp) ∧ (∀ f ∈ gs, f.length ≤ 74) ∧
    (∀ f ∈ gs.dropLast, 70 < f.length) ∧ ∀ f ∈ g :: gs, (10 : Byte) ∉ f

/-- Every recorded offset lies strictly inside the buffer, and different keys
have different offsets. -/
def Separated (t : Table) : Prop :=
  (∀ e ∈ t.StringOffset, e.2 < t.AggregateString.length) ∧
  ∀ e1 ∈ t.StringOffset, ∀ e2 ∈ t.StringOffset, e1.1 ≠ e2.1 → e1.2 ≠ e2.2

/-- The text of strategy B for the byte of index `i`: space, single quote, the
escaped byte, single quote, comma, and then newline and space exactly when
`i + 1` is a multiple of 15. -/
def charArrayItem (i : Nat) (b : Byte) : List Byte :=
  [32, 39] ++ write_escaped [b] ++ [39, 44] ++ (if (i + 1) % 15 = 0 then [10, 32] else [])

/-- The whole text of strategy B for a buffer: one space, the items of the
bytes in order, one newline. -/
def charArrayText (buffer : List Byte) : List Byte :=
  [32] ++ ((buffer.enum.map (fun p => charArrayItem p.1 p.2)).flatten) ++ [10]

/-- Reading a single-quoted character literal under the escape convention of
`unescape`: between the two single quotes stands either one character other
than the single quote, the backslash and the newline, which denotes itself, or
one escape, which denotes the byte `unescape` gives. Anything else is not a
character literal. -/
def readCharLiteral (tok : List Byte) : Option Byte :=
  if tok.head? = some 39 ∧ tok.getLast? = some 39 ∧ 2 ≤ tok.length then
    match (tok.drop 1).dropLast with
    | [c] => if c = 39 ∨ c = 92 ∨ c = 10 then none else some c
    | body =>
      if body.head? = some 92 then
        match unescape body with
        | some [b] => some b
        | _ => none
      else none
  else none

set_option maxRecDepth 100000

/-- A value that fits in `unsigned` is not changed by the conversion. -/
theorem toUnsigned_of_lt (n : Nat) (h : n < 4294967296) : toUnsigned n = n :=
  Nat.mod_eq_of_lt h

theorem toUnsigned_lt (n : Nat) : toUnsigned n < 4294967296 :=
  Nat.mod_lt n (by decide)

theorem find_eq_none_iff (m : List (List Byte × Nat)) (s : List Byte) :
    find m s = none ↔ s ∉ m.map Prod.fst := by
  induction m with
  | nil => simp [find]
  | cons e m ih =>
    obtain ⟨k, v⟩ := e
    by_cases h : k = s
    · simp [find, h]
    · simp only [find, h, if_false, ih, List.map_cons, List.mem_cons]
      constructor
      · intro h1 h2
        rcases h2 with h2 | h2
        · exact h h2.symm
        · exact h1 h2
      · intro h1 h2
        exact h1 (Or.inr h2)

theorem find_mem (m : List (List Byte × Nat)) (s : List Byte) (v : Nat)
    (h : find m s = some v) : (s, v) ∈ m := by
  induction m with
  | nil => simp [find] at h
  | cons e m ih =>
    obtain ⟨k, w⟩ := e
    by_cases hk : k = s
    · simp [find, hk] at h
      simp [hk, h]
    · simp only [find, hk, if_false] at h
      exact List.mem_cons_of_mem _ (ih h)

theorem find_append_some (m m2 : List (List Byte × Nat)) (s : List Byte) (v : Nat)
    (h : find m s = some v) : find (m ++ m2) s = some v := by
  induction m with
  | nil => simp [find] at h
  | cons e m ih =>
    obtain ⟨k, w⟩ := e
    by_cases hk : k = s
    · simpa [find, hk] using h
    · simp only [find, hk, if_false, List.cons_append] at h ⊢
      exact ih h

theorem find_append_none (m m2 : List (List Byte × Nat)) (s : List Byte)
    (h : find m s = none) : find (m ++ m2) s = find m2 s := by
  induction m with
  | nil => rfl
  | cons e m ih =>
    obtain ⟨k, w⟩ := e
    by_cases hk : k = s
    · simp [find, hk] at h
    · simp only [find, hk, if_false, List.cons_append] at h ⊢
      exact ih h

theorem find_single (s : List Byte) (v : Nat) : find [(s, v)] s = some v := by
  simp [find]

/-- The result of a call that finds its key. -/
theorem GetOrAdd_found (t : Table) (s : List Byte) (f : Bool) (off : Nat)
    (h : find t.StringOffset s = some off) : GetOrAddStringOffset t s f = (off, t) := by
  simp [GetOrAddStringOffset, h]

/-- The result of a call that does not find its key. -/
theorem GetOrAdd_new (t : Table) (s : List Byte) (f : Bool)
    (h : find t.StringOffset s = none) :
    GetOrAddStringOffset t s f =
      (toUnsigned t.AggregateString.length,
        { PL := t.PL,
          StringOffset := t.StringOffset ++ [(s, toUnsigned t.AggregateString.length)],
          AggregateString := t.AggregateString ++ block (s, f) }) := by
  cases f <;> simp [GetOrAddStringOffset, h, block]

theorem GetOrAdd_find (t : Table) (s : List Byte) (f : Bool) :
    find (GetOrAddStringOffset t s f).2.StringOffset s = some (GetOrAddStringOffset t s f).1 := by
  cases h : find t.StringOffset s with
  | some off => rw [GetOrAdd_found t s f off h]; exact h
  | none =>
    rw [GetOrAdd_new t s f h]
    simp only
    rw [find_append_none _ _ _ h, find_single]

theorem GetOrAdd_find_mono (t : Table) (s : List Byte) (f : Bool) (k : List Byte) (v : Nat)
    (hk : find t.StringOffset k = some v) :
    find (GetOrAddStringOffset t s f).2.StringOffset k = some v := by
  cases h : find t.StringOffset s with
  | some off => rw [GetOrAdd_found t s f off h]; exact hk
  | none =>
    rw [GetOrAdd_new t s f h]
    exact find_append_some _ _ _ _ hk

theorem internAll_nil (t : Table) : internAll t [] = ([], t) := rfl

theorem internAll_cons (t : Table) (s : List Byte) (f : Bool) (calls : List (List Byte × Bool)) :
    internAll t ((s, f) :: calls) =
      ((GetOrAddStringOffset t s f).1 :: (internAll (GetOrAddStringOffset t s f).2 calls).1,
        (internAll (GetOrAddStringOffset t s f).2 calls).2) := rfl

theorem internAll_find_mono (calls : List (List Byte × Bool)) (t : Table) (k : List Byte) (v : Nat)
    (hk : find t.StringOffset k = some v) :
    find (internAll t calls).2.StringOffset k = some v := by
  induction calls generalizing t with
  | nil => exact hk
  | cons c calls ih =>
    obtain ⟨s, f⟩ := c
    rw [internAll_cons]
    exact ih _ (GetOrAdd_find_mono t s f k v hk)

theorem find_append_single (m : List (List Byte × Nat)) (s k : List Byte) (v : Nat)
    (h : find m s = none) :
    find (m ++ [(s, v)]) k = if k = s then some v else find m k := by
  by_cases hk : k = s
  · subst hk
    rw [find_append_none _ _ _ h, find_single]; simp
  · simp only [hk, if_false]
    cases hm : find m k with
    | some w => exact find_append_some _ _ _ _ hm
    | none =>
      rw [find_append_none _ _ _ hm]
      simp [find, Ne.symm hk]

theorem firstOccurrences_mem (calls : List (List Byte × Bool)) (seen : List (List Byte))
    (c : List Byte × Bool) :
    c ∈ firstOccurrences seen calls ↔
      c.1 ∉ seen ∧ ∃ pre post, calls = pre ++ c :: post ∧ ∀ d ∈ pre, d.1 ≠ c.1 := by
  induction calls generalizing seen with
  | nil => simp [firstOccurrences]
  | cons a calls ih =>
    by_cases ha : a.1 ∈ seen
    · simp only [firstOccurrences, ha, if_true, ih]
      constructor
      · rintro ⟨h1, pre, post, h2, h3⟩
        refine ⟨h1, a :: pre, post, by simp [h2], ?_⟩
        intro d hd
        rcases List.mem_cons.mp hd with hd | hd
        · subst hd; intro h; exact h1 (h ▸ ha)
        · exact h3 d hd
      · rintro ⟨h1, pre, post, h2, h3⟩
        refine ⟨h1, ?_⟩
        cases pre with
        | nil =>
          simp only [List.nil_append, List.cons.injEq] at h2
          exact absurd (h2.1 ▸ ha) h1
        | cons b pre =>
          simp only [List.cons_append, List.cons.injEq] at h2
          exact ⟨pre, post, h2.2, fun d hd => h3 d (List.mem_cons_of_mem _ hd)⟩
    · have hsplit : c.1 ∉ seen ++ [a.1] ↔ c.1 ∉ seen ∧ c.1 ≠ a.1 := by simp
      simp only [firstOccurrences, ha, if_false, List.mem_cons, ih, hsplit]
      constructor
      · rintro (h | ⟨⟨h1, h1'⟩, pre, post, h2, h3⟩)
        · subst h
          exact ⟨ha, [], calls, rfl, by simp⟩
        · refine ⟨h1, a :: pre, post, by simp [h2], ?_⟩
          intro d hd
          rcases List.mem_cons.mp hd with hd | hd
          · subst hd; exact fun h => h1' h.symm
          · exact h3 d hd
      · rintro ⟨h1, pre, post, h2, h3⟩
        cases pre with
        | nil =>
          simp only [List.nil_append, List.cons.injEq] at h2
          exact Or.inl h2.1.symm
        | cons b pre =>
          simp only [List.cons_append, List.cons.injEq] at h2
          right
          refine ⟨⟨h1, ?_⟩, pre, post, h2.2, fun d hd => h3 d (List.mem_cons_of_mem _ hd)⟩
          have hb := h3 b (List.mem_cons_self _ _)
          rw [← h2.1] at hb
          exact fun h => hb h.symm

theorem firstOccurrences_notin (calls : List (List Byte × Bool)) (seen : List (List Byte))
    (c : List Byte × Bool) (hc : c ∈ firstOccurrences seen calls) : c.1 ∉ seen :=
  ((firstOccurrences_mem calls seen c).mp hc).1

theorem firstOccurrences_nodup (calls : List (List Byte × Bool)) (seen : List (List Byte)) :
    ((firstOccurrences seen calls).map Prod.fst).Nodup := by
  induction calls generalizing seen with
  | nil => simp [firstOccurrences]
  | cons a calls ih =>
    by_cases ha : a.1 ∈ seen
    · simp only [firstOccurrences, ha, if_true]; exact ih seen
    · simp only [firstOccurrences, ha, if_false, List.map_cons, List.nodup_cons]
      refine ⟨?_, ih _⟩
      intro hmem
      obtain ⟨c, hc, hca⟩ := List.mem_map.mp hmem
      have := firstOccurrences_notin calls _ c hc
      apply this
      simp [hca]

theorem firstOccurrences_sublist (calls : List (List Byte × Bool)) (seen : List (List Byte)) :
    (firstOccurrences seen calls).Sublist calls := by
  induction calls generalizing seen with
  | nil => simp [firstOccurrences]
  | cons a calls ih =>
    by_cases ha : a.1 ∈ seen
    · simp only [firstOccurrences, ha, if_true]
      exact List.Sublist.cons _ (ih seen)
    · simp only [firstOccurrences, ha, if_false]
      exact List.Sublist.cons₂ _ (ih _)

theorem internAll_buffer (calls : List (List Byte × Bool)) (t : Table) :
    (internAll t calls).2.AggregateString =
      t.AggregateString ++
        ((firstOccurrences (t.StringOffset.map Prod.fst) calls).map block).flatten := by
  induction calls generalizing t with
  | nil => simp [internAll_nil, firstOccurrences]
  | cons c calls ih =>
    obtain ⟨s, f⟩ := c
    rw [internAll_cons]
    simp only
    rw [ih]
    cases h : find t.StringOffset s with
    | some off =>
      rw [GetOrAdd_found t s f off h]
      have hs : s ∈ t.StringOffset.map Prod.fst := by
        by_contra hn
        rw [(find_eq_none_iff _ _).mpr hn] at h
        exact Option.noConfusion h
      simp only [firstOccurrences, hs, if_true]
    | none =>
      rw [GetOrAdd_new t s f h]
      have hs : s ∉ t.StringOffset.map Prod.fst := (find_eq_none_iff _ _).mp h
      simp only [firstOccurrences, hs, if_false, List.map_append, List.map_cons, List.map_nil,
        List.flatten_cons, List.append_assoc]

theorem internAll_append (a b : List (List Byte × Bool)) (t : Table) :
    (internAll t (a ++ b)).2 = (internAll (internAll t a).2 b).2 := by
  induction a generalizing t with
  | nil => rfl
  | cons c a ih =>
    obtain ⟨s, f⟩ := c
    rw [List.cons_append, internAll_cons, internAll_cons]
    exact ih _

theorem internAll_length_le (calls : List (List Byte × Bool)) (t : Table) :
    t.AggregateString.length ≤ (internAll t calls).2.AggregateString.length := by
  rw [internAll_buffer, List.length_append]
  omega

/-- Between two new insertions the buffer grows by at least the block of the
first one. -/
theorem new_insertions_gap (t : Table) (s : List Byte) (f : Bool)
    (mid : List (List Byte × Bool)) (hs : find t.StringOffset s = none) :
    t.AggregateString.length + (block (s, f)).length ≤
      (internAll t ((s, f) :: mid)).2.AggregateString.length := by
  rw [internAll_cons]
  have h := internAll_length_le mid (GetOrAddStringOffset t s f).2
  rw [GetOrAdd_new t s f hs] at h ⊢
  simp only [List.length_append] at h
  exact h

theorem block_ne_nil (s : List Byte) (f : Bool) (h : s = [] → f = true) : block (s, f) ≠ [] := by
  cases s with
  | nil => simp [block, h rfl]
  | cons c s => simp [block]
/-! ## The map and the buffer -/

theorem Inv_GetOrAdd (t : Table) (s : List Byte) (f : Bool) (hI : Inv t) :
    Inv (GetOrAddStringOffset t s f).2 := by
  cases h : find t.StringOffset s with
  | some off => rw [GetOrAdd_found t s f off h]; exact hI
  | none =>
    rw [GetOrAdd_new t s f h]
    intro e he
    simp only [List.mem_append, List.mem_singleton] at he
    rcases he with he | he
    · obtain ⟨p, h0, h1, h2⟩ := hI e he
      refine ⟨p, h0, ?_, ?_⟩
      · simp only [List.length_append]; omega
      · simp only
        rw [List.drop_append_of_le_length (by omega), List.take_append_of_le_length]
        · exact h2
        · simp only [List.length_drop]; omega
    · subst he
      refine ⟨t.AggregateString.length, rfl, ?_, ?_⟩
      · simp only [List.length_append, block]; omega
      · simp only [block]
        rw [List.drop_append_of_le_length (Nat.le_refl _), List.drop_length, List.nil_append,
          List.take_append_of_le_length (Nat.le_refl _), List.take_length]

theorem Inv_internAll (calls : List (List Byte × Bool)) (t : Table) (hI : Inv t) :
    Inv (internAll t calls).2 := by
  induction calls generalizing t with
  | nil => exact hI
  | cons c calls ih =>
    obtain ⟨s, f⟩ := c
    rw [internAll_cons]
    exact ih _ (Inv_GetOrAdd t s f hI)

theorem Inv_mk1 (PL : PrinterLanguage) : Inv (Table.mk1 PL) := by
  intro e he
  simp [Table.mk1] at he

/-- Two calls on a fresh table with different strings: both are new
insertions, the first at offset 0, the second at the length of the first block
converted to `unsigned`. -/
theorem internAll_two (PL : PrinterLanguage) (A k : List Byte) (f g : Bool) (hne : A ≠ k) :
    internAll (Table.mk1 PL) [(A, f), (k, g)] =
      ([0, toUnsigned (block (A, f)).length],
        { PL := PL,
          StringOffset := [(A, 0), (k, toUnsigned (block (A, f)).length)],
          AggregateString := block (A, f) ++ block (k, g) }) := by
  have h1 : find (Table.mk1 PL).StringOffset A = none := rfl
  rw [internAll_cons, internAll_cons, internAll_nil, GetOrAdd_new _ A f h1]
  have h2 : find ((Table.mk1 PL).StringOffset ++
      [(A, toUnsigned (Table.mk1 PL).AggregateString.length)]) k = none := by
    simp [Table.mk1, find, hne]
  rw [GetOrAdd_new _ k g h2]
  rfl

/-- Claim C1, amended (map/buffer invariant). In every table reached from a
freshly constructed one (either constructor: `Table.mk0` is `Table.mk1` at the
C++ selector) by a finite sequence of `GetOrAddStringOffset` calls, every entry
`(s, off)` of `StringOffset` has `off = p mod 2^32` for a position `p` with
`p + len(s) <= len(AggregateString)` at which the buffer holds `s`; when the
buffer is shorter than `2^32` bytes, `off` itself is that position:
`off + len(s) <= len(AggregateString)` and the buffer holds `s` at `off`. -/
theorem C1_map_buffer_invariant (PL : PrinterLanguage) (calls : List (List Byte × Bool))
    (s : List Byte) (off : Nat)
    (h : (s, off) ∈ (internAll (Table.mk1 PL) calls).2.StringOffset) :
    (∃ p, toUnsigned p = off ∧
      p + s.length ≤ (internAll (Table.mk1 PL) calls).2.AggregateString.length ∧
      ((internAll (Table.mk1 PL) calls).2.AggregateString.drop p).take s.length = s) ∧
    ((internAll (Table.mk1 PL) calls).2.AggregateString.length < 4294967296 →
      off + s.length ≤ (internAll (Table.mk1 PL) calls).2.AggregateString.length ∧
      ((internAll (Table.mk1 PL) calls).2.AggregateString.drop off).take s.length = s) := by
  obtain ⟨p, h0, h1, h2⟩ := Inv_internAll calls _ (Inv_mk1 PL) (s, off) h
  refine ⟨⟨p, h0, h1, h2⟩, ?_⟩
  intro hlen
  have hp : toUnsigned p = p := toUnsigned_of_lt p (by omega)
  simp only at h0 h1 h2
  rw [hp] at h0
  subst h0
  exact ⟨h1, h2⟩

theorem C1_map_buffer_invariant_witness :
    (([98, 97, 114] : List Byte), 4) ∈
      (internAll (Table.mk1 PrinterLanguage.PRINTER_LANG_CPP)
        [([102, 111, 111], true), ([98, 97, 114], true)]).2.StringOffset ∧
    (internAll (Table.mk1 PrinterLanguage.PRINTER_LANG_CPP)
        [([102, 111, 111], true), ([98, 97, 114], true)]).2.AggregateString.length <
      4294967296 ∧
    4 + ([98, 97, 114] : List Byte).length ≤
      (internAll (Table.mk1 PrinterLanguage.PRINTER_LANG_CPP)
        [([102, 111, 111], true), ([98, 97, 114], true)]).2.AggregateString.length ∧
    ((internAll (Table.mk1 PrinterLanguage.PRINTER_LANG_CPP)
        [([102, 111, 111], true), ([98, 97, 114], true)]).2.AggregateString.drop 4).take
        ([98, 97, 114] : List Byte).length = [98, 97, 114] :=
  ⟨by decide, by decide,
    (C1_map_buffer_invariant PrinterLanguage.PRINTER_LANG_CPP
      [([102, 111, 111], true), ([98, 97, 114], true)] [98, 97, 114] 4 (by decide)).2
      (by decide)⟩

/-- The table after a string of `2^32` bytes and then the string `b`: the
entry of `b` has offset 0, where the buffer holds the first byte of the long
string. -/
theorem wrapped_entry (PL : PrinterLanguage) (a : Byte) (A : List Byte)
    (hlen : (a :: A).length = 4294967296) (ha : a ≠ 98) :
    (([98] : List Byte), 0) ∈
      (internAll (Table.mk1 PL) [(a :: A, false), ([98], true)]).2.StringOffset ∧
    ((internAll (Table.mk1 PL) [(a :: A, false), ([98], true)]).2.AggregateString.drop 0).take
        ([98] : List Byte).length = [a] := by
  have hne : a :: A ≠ [98] := fun h => ha (List.cons.inj h).1
  have hb : (block (a :: A, false)).length = 4294967296 := by
    simp only [block, Bool.false_eq_true, if_false, List.append_nil]
    exact hlen
  rw [internAll_two PL (a :: A) [98] false true hne, hb]
  constructor
  · simp [toUnsigned]
  · simp [block]

/-- Claim C1 fails as stated: after interning a string of `2^32` letters `a`
without terminator and then the string `b`, the map holds `b` with offset 0,
but the buffer holds the letter `a` at position 0. -/
theorem C1_map_buffer_invariant_counterexample :
    (([98] : List Byte), 0) ∈
      (internAll (Table.mk1 PrinterLanguage.PRINTER_LANG_CPP)
        [(97 :: List.replicate 4294967295 97, false), ([98], true)]).2.StringOffset ∧
    ((internAll (Table.mk1 PrinterLanguage.PRINTER_LANG_CPP)
        [(97 :: List.replicate 4294967295 97, false), ([98], true)]).2.AggregateString.drop
          0).take ([98] : List Byte).length = [97] ∧
    ([97] : List Byte) ≠ [98] :=
  ⟨(wrapped_entry PrinterLanguage.PRINTER_LANG_CPP 97 (List.replicate 4294967295 97)
      (by rw [List.length_cons, List.length_replicate]) (by decide)).1,
   (wrapped_entry PrinterLanguage.PRINTER_LANG_CPP 97 (List.replicate 4294967295 97)
      (by rw [List.length_cons, List.length_replicate]) (by decide)).2,
   by decide⟩

theorem GetOrAdd_twice (t : Table) (s : List Byte) (f1 f2 : Bool) :
    (GetOrAddStringOffset (GetOrAddStringOffset t s f1).2 s f2).1 =
      (GetOrAddStringOffset t s f1).1 ∧
    (GetOrAddStringOffset (GetOrAddStringOffset t s f1).2 s f2).2 =
      (GetOrAddStringOffset t s f1).2 := by
  rw [GetOrAdd_found _ s f2 _ (GetOrAdd_find t s f1)]
  exact ⟨rfl, rfl⟩

/-- Claim C2 (dedup idempotence). On every reachable table, for every string
and every pair of flags, a second `GetOrAddStringOffset` call with the same
string returns the offset the first one returned and leaves the whole table,
`AggregateString` and `StringOffset` included, as the first call left it: the
second flag is ignored. -/
theorem C2_dedup_idempotence (PL : PrinterLanguage) (calls : List (List Byte × Bool))
    (s : List Byte) (f1 f2 : Bool) :
    (GetOrAddStringOffset
        (GetOrAddStringOffset (internAll (Table.mk1 PL) calls).2 s f1).2 s f2).1 =
      (GetOrAddStringOffset (internAll (Table.mk1 PL) calls).2 s f1).1 ∧
    (GetOrAddStringOffset
        (GetOrAddStringOffset (internAll (Table.mk1 PL) calls).2 s f1).2 s f2).2 =
      (GetOrAddStringOffset (internAll (Table.mk1 PL) calls).2 s f1).2 :=
  GetOrAdd_twice _ s f1 f2

/-- When every call of a sequence submits a string the map holds, the table
is left as it was. -/
theorem internAll_all_found (mid : List (List Byte × Bool)) (t : Table)
    (h : ∀ c ∈ mid, find t.StringOffset c.1 ≠ none) : (internAll t mid).2 = t := by
  induction mid with
  | nil => rfl
  | cons c mid ih =>
    obtain ⟨k, g⟩ := c
    rw [internAll_cons]
    cases hk : find t.StringOffset k with
    | none => exact absurd hk (h (k, g) (List.mem_cons_self _ _))
    | some off =>
      rw [GetOrAdd_found t k g off hk]
      exact ih (fun c hc => h c (List.mem_cons_of_mem _ hc))

/-- When the map holds the empty string and a sequence of calls leaves the
length of the buffer as it was, no call of the sequence was a new insertion. -/
theorem internAll_same_length (mid : List (List Byte × Bool)) (t : Table)
    (h0 : find t.StringOffset [] ≠ none)
    (hl : (internAll t mid).2.AggregateString.length = t.AggregateString.length) :
    ∀ c ∈ mid, find t.StringOffset c.1 ≠ none := by
  induction mid with
  | nil => intro c hc; simp at hc
  | cons c mid ih =>
    obtain ⟨k, g⟩ := c
    cases hk : find t.StringOffset k with
    | none =>
      exfalso
      have hk0 : k ≠ [] := by
        rintro rfl
        exact h0 hk
      have hb : 0 < (block (k, g)).length :=
        List.length_pos.mpr (block_ne_nil k g (fun h => absurd h hk0))
      have := new_insertions_gap t k g mid hk
      omega
    | some off =>
      rw [internAll_cons, GetOrAdd_found t k g off hk] at hl
      intro c hc
      rcases List.mem_cons.mp hc with rfl | hc
      · simp only
        rw [hk]
        exact Option.some_ne_none off
      · exact ih hl c hc

theorem internAll_snoc_split (t : Table) (pre mid : List (List Byte × Bool)) (s : List Byte)
    (f : Bool) :
    (internAll t (pre ++ (s, f) :: mid)).2 =
      (internAll (GetOrAddStringOffset (internAll t pre).2 s f).2 mid).2 := by
  rw [internAll_append, internAll_cons]

/-- The offsets returned for a string of `2^32 - 1` bytes and then the string
`b`, both with their terminator: 0 both times. -/
theorem wrapped_offsets (PL : PrinterLanguage) (a : Byte) (A : List Byte)
    (hlen : (a :: A).length = 4294967295) (ha : a ≠ 98) :
    a :: A ≠ [98] ∧
    internAll (Table.mk1 PL) [(a :: A, true), ([98], true)] =
      ([0, 0],
        { PL := PL, StringOffset := [(a :: A, 0), ([98], 0)],
          AggregateString := block (a :: A, true) ++ block ([98], true) }) := by
  have hne : a :: A ≠ [98] := fun h => ha (List.cons.inj h).1
  have hb : (block (a :: A, true)).length = 4294967296 := by
    simp only [block, if_true, List.length_append, hlen, List.length_cons, List.length_nil]
  refine ⟨hne, ?_⟩
  rw [internAll_two PL (a :: A) [98] true true hne, hb]
  rfl

/-- Claim C3 fails as stated. Interning the empty string without terminator
and then the different string `a` into a fresh table returns offset 0 both
times. Interning a string of `2^32 - 1` letters `a` and then the string `b`,
both with their terminator, returns offset 0 both times as well, the second
offset being `2^32` converted to `unsigned`. -/
theorem C3_distinct_offsets_counterexample :
    (([] : List Byte) ≠ [97] ∧
      (internAll Table.mk0 [([], false), ([97], true)]).1 = [0, 0]) ∧
    ((97 :: List.replicate 4294967294 97 : List Byte) ≠ [98] ∧
      (internAll (Table.mk1 PrinterLanguage.PRINTER_LANG_CPP)
        [(97 :: List.replicate 4294967294 97, true), ([98], true)]).1 = [0, 0]) :=
  ⟨⟨by decide, by decide⟩,
    (wrapped_offsets PrinterLanguage.PRINTER_LANG_CPP 97 (List.replicate 4294967294 97)
      (by rw [List.length_cons, List.length_replicate]) (by decide)).1,
    congrArg Prod.fst
      (wrapped_offsets PrinterLanguage.PRINTER_LANG_CPP 97 (List.replicate 4294967294 97)
        (by rw [List.length_cons, List.length_replicate]) (by decide)).2⟩

/-- Claim C3, amended. Let a call newly insert `s` and a later call newly
insert `u` (so `s` and `u` differ), in a sequence of calls on a fresh table,
and let the buffer be shorter than `2^32` bytes when `u` is inserted. Then the
two calls return the same offset exactly when `s` is the empty string interned
with `appendZero = false` and no call between the two is a new insertion; in
every other case the offsets differ. Every later call with `s` or with `u`
returns the offset of the first one. -/
theorem C3_distinct_offsets (PL : PrinterLanguage) (pre mid : List (List Byte × Bool))
    (s u : List Byte) (f g : Bool)
    (hs : find (internAll (Table.mk1 PL) pre).2.StringOffset s = none)
    (hu : find (internAll (Table.mk1 PL) (pre ++ (s, f) :: mid)).2.StringOffset u = none)
    (hlen : (internAll (Table.mk1 PL) (pre ++ (s, f) :: mid)).2.AggregateString.length < 4294967296) :
    ((GetOrAddStringOffset (internAll (Table.mk1 PL) pre).2 s f).1 = (GetOrAddStringOffset (internAll (Table.mk1 PL) (pre ++ (s, f) :: mid)).2 u g).1 ↔
      (s = [] ∧ f = false ∧
        ∀ c ∈ mid, find (GetOrAddStringOffset (internAll (Table.mk1 PL) pre).2 s f).2.StringOffset c.1 ≠ none)) ∧
    ∀ (post : List (List Byte × Bool)) (f2 g2 : Bool),
      (GetOrAddStringOffset (internAll (GetOrAddStringOffset (internAll (Table.mk1 PL) (pre ++ (s, f) :: mid)).2 u g).2 post).2 s f2).1 =
        (GetOrAddStringOffset (internAll (Table.mk1 PL) pre).2 s f).1 ∧
      (GetOrAddStringOffset (internAll (GetOrAddStringOffset (internAll (Table.mk1 PL) (pre ++ (s, f) :: mid)).2 u g).2 post).2 u g2).1 =
        (GetOrAddStringOffset (internAll (Table.mk1 PL) (pre ++ (s, f) :: mid)).2 u g).1 := by
  have hsplit := internAll_snoc_split (Table.mk1 PL) pre mid s f
  have hgap := new_insertions_gap (internAll (Table.mk1 PL) pre).2 s f mid hs
  rw [← internAll_append] at hgap
  have h1 : (GetOrAddStringOffset (internAll (Table.mk1 PL) pre).2 s f).1 = (internAll (Table.mk1 PL) pre).2.AggregateString.length := by
    rw [GetOrAdd_new _ s f hs]
    exact toUnsigned_of_lt _ (by omega)
  have h2 : (GetOrAddStringOffset (internAll (Table.mk1 PL) (pre ++ (s, f) :: mid)).2 u g).1 = (internAll (Table.mk1 PL) (pre ++ (s, f) :: mid)).2.AggregateString.length := by
    rw [GetOrAdd_new _ u g hu]
    exact toUnsigned_of_lt _ hlen
  have hTs : (GetOrAddStringOffset (internAll (Table.mk1 PL) pre).2 s f).2.AggregateString.length =
      (internAll (Table.mk1 PL) pre).2.AggregateString.length + (block (s, f)).length := by
    rw [GetOrAdd_new _ s f hs]
    simp only [List.length_append]
  constructor
  · rw [h1, h2]
    constructor
    · intro heq
      have hb : (block (s, f)).length = 0 := by omega
      have hnil : block (s, f) = [] := List.length_eq_zero.mp hb
      have hsf : s = [] ∧ f = false := by
        by_contra hcon
        apply block_ne_nil s f _ hnil
        intro hs0
        cases f with
        | true => rfl
        | false => exact absurd ⟨hs0, rfl⟩ hcon
      refine ⟨hsf.1, hsf.2, ?_⟩
      apply internAll_same_length
      · have h0 := GetOrAdd_find (internAll (Table.mk1 PL) pre).2 s f
        rw [hsf.1] at h0 ⊢
        rw [h0]
        exact Option.some_ne_none _
      · rw [← hsplit, hTs]
        omega
    · rintro ⟨hs0, hf0, hmid⟩
      rw [hsplit, internAll_all_found mid _ hmid, hTs, hs0, hf0]
      simp [block]
  · intro post f2 g2
    constructor
    · have hfs := GetOrAdd_find (internAll (Table.mk1 PL) pre).2 s f
      have hfm := internAll_find_mono mid _ s _ hfs
      rw [← hsplit] at hfm
      have hfu := GetOrAdd_find_mono (internAll (Table.mk1 PL) (pre ++ (s, f) :: mid)).2 u g s _ hfm
      have hfp := internAll_find_mono post _ s _ hfu
      rw [GetOrAdd_found _ s f2 _ hfp]
    · have hfu := GetOrAdd_find (internAll (Table.mk1 PL) (pre ++ (s, f) :: mid)).2 u g
      have hfp := internAll_find_mono post _ u _ hfu
      rw [GetOrAdd_found _ u g2 _ hfp]

theorem C3_distinct_offsets_witness :
    find (internAll (Table.mk1 PrinterLanguage.PRINTER_LANG_CPP)
      [([97], true)]).2.StringOffset [] = none ∧
    find (internAll (Table.mk1 PrinterLanguage.PRINTER_LANG_CPP)
      ([([97], true)] ++ ([], false) :: [([97], false)])).2.StringOffset [98] = none ∧
    (internAll (Table.mk1 PrinterLanguage.PRINTER_LANG_CPP)
      ([([97], true)] ++ ([], false) :: [([97], false)])).2.AggregateString.length <
      4294967296 ∧
    ((GetOrAddStringOffset (internAll (Table.mk1 PrinterLanguage.PRINTER_LANG_CPP)
        [([97], true)]).2 [] false).1 =
      (GetOrAddStringOffset (internAll (Table.mk1 PrinterLanguage.PRINTER_LANG_CPP)
        ([([97], true)] ++ ([], false) :: [([97], false)])).2 [98] true).1 ↔
      (([] : List Byte) = [] ∧ false = false ∧
        ∀ c ∈ [(([97] : List Byte), false)],
          find (GetOrAddStringOffset (internAll (Table.mk1 PrinterLanguage.PRINTER_LANG_CPP)
            [([97], true)]).2 [] false).2.StringOffset c.1 ≠ none)) :=
  ⟨by decide, by decide, by decide,
    (C3_distinct_offsets PrinterLanguage.PRINTER_LANG_CPP [([97], true)] [([97], false)]
      [] [98] false true (by decide) (by decide) (by decide)).1⟩

/-- Claim C4, amended (new-insertion postcondition). On every reachable table
whose map does not hold `s`, `GetOrAddStringOffset s flag` returns the old
buffer length converted to `unsigned`, that is modulo `2^32`, which is the old
length itself when that is below `2^32`; the new buffer is the old one followed
by `s` and by one zero byte exactly when the flag is set, and the new map is
the old one plus the single entry from `s` to the returned offset (as a list,
and as a lookup function). The last conjunct is the example of the claim: `foo`
then `bar`, both terminated, give offsets 0 and 4 and the eight bytes
`foo\0bar\0`. -/
theorem C4_new_insertion (PL : PrinterLanguage) (calls : List (List Byte × Bool))
    (s : List Byte) (flag : Bool)
    (h : find (internAll (Table.mk1 PL) calls).2.StringOffset s = none) :
    (GetOrAddStringOffset (internAll (Table.mk1 PL) calls).2 s flag).1 = toUnsigned (internAll (Table.mk1 PL) calls).2.AggregateString.length ∧
    ((internAll (Table.mk1 PL) calls).2.AggregateString.length < 4294967296 →
      (GetOrAddStringOffset (internAll (Table.mk1 PL) calls).2 s flag).1 = (internAll (Table.mk1 PL) calls).2.AggregateString.length) ∧
    (GetOrAddStringOffset (internAll (Table.mk1 PL) calls).2 s flag).2.AggregateString =
      (internAll (Table.mk1 PL) calls).2.AggregateString ++ s ++ (if flag then [0] else []) ∧
    (GetOrAddStringOffset (internAll (Table.mk1 PL) calls).2 s flag).2.StringOffset =
      (internAll (Table.mk1 PL) calls).2.StringOffset ++ [(s, (GetOrAddStringOffset (internAll (Table.mk1 PL) calls).2 s flag).1)] ∧
    (∀ k, find (GetOrAddStringOffset (internAll (Table.mk1 PL) calls).2 s flag).2.StringOffset k =
      if k = s then some (GetOrAddStringOffset (internAll (Table.mk1 PL) calls).2 s flag).1
      else find (internAll (Table.mk1 PL) calls).2.StringOffset k) ∧
    internAll Table.mk0 [([102, 111, 111], true), ([98, 97, 114], true)] =
      ([0, 4],
        { PL := PrinterLanguage.PRINTER_LANG_CPP,
          StringOffset := [([102, 111, 111], 0), ([98, 97, 114], 4)],
          AggregateString := [102, 111, 111, 0, 98, 97, 114, 0] }) := by
  rw [GetOrAdd_new _ s flag h]
  refine ⟨rfl, fun hlen => toUnsigned_of_lt _ hlen, ?_, rfl, ?_, by decide⟩
  · simp [block, List.append_assoc]
  · intro k
    exact find_append_single _ s k _ h

theorem C4_new_insertion_witness :
    find (internAll (Table.mk1 PrinterLanguage.PRINTER_LANG_CPP)
        [([102, 111, 111], true)]).2.StringOffset [98, 97, 114] = none ∧
    (GetOrAddStringOffset (internAll (Table.mk1 PrinterLanguage.PRINTER_LANG_CPP)
        [([102, 111, 111], true)]).2 [98, 97, 114] true).1 = 4 ∧
    (GetOrAddStringOffset (internAll (Table.mk1 PrinterLanguage.PRINTER_LANG_CPP)
        [([102, 111, 111], true)]).2 [98, 97, 114] true).2.AggregateString =
      [102, 111, 111, 0, 98, 97, 114, 0] :=
  ⟨by decide,
    (C4_new_insertion PrinterLanguage.PRINTER_LANG_CPP [([102, 111, 111], true)]
      [98, 97, 114] true (by decide)).1,
    (C4_new_insertion PrinterLanguage.PRINTER_LANG_CPP [([102, 111, 111], true)]
      [98, 97, 114] true (by decide)).2.2.1⟩

/-- The table after one call on a fresh table. -/
theorem internAll_one (PL : PrinterLanguage) (A : List Byte) (f : Bool) :
    (internAll (Table.mk1 PL) [(A, f)]).2 =
      { PL := PL, StringOffset := [(A, 0)], AggregateString := block (A, f) } := by
  have h1 : find (Table.mk1 PL).StringOffset A = none := rfl
  rw [internAll_cons, internAll_nil, GetOrAdd_new _ A f h1]
  rfl

/-- A new insertion into a table whose buffer holds `2^32` bytes returns 0. -/
theorem wrapped_return (PL : PrinterLanguage) (a : Byte) (A : List Byte)
    (hlen : (a :: A).length = 4294967296) (ha : a ≠ 98) :
    find (internAll (Table.mk1 PL) [(a :: A, false)]).2.StringOffset [98] = none ∧
    (GetOrAddStringOffset (internAll (Table.mk1 PL) [(a :: A, false)]).2 [98] true).1 = 0 ∧
    (internAll (Table.mk1 PL) [(a :: A, false)]).2.AggregateString.length = 4294967296 := by
  have hne : a :: A ≠ [98] := fun h => ha (List.cons.inj h).1
  have hb : (block (a :: A, false)).length = 4294967296 := by
    simp only [block, Bool.false_eq_true, if_false, List.append_nil]
    exact hlen
  rw [internAll_one]
  have hf : find [(a :: A, 0)] [98] = none := by simp [find, hne]
  refine ⟨hf, ?_, hb⟩
  rw [GetOrAdd_new _ _ _ hf]
  simp only [hb]
  rfl

/-- Claim C4 fails as stated: on the table reached by interning a string of
`2^32` letters `a` without terminator, whose map does not hold `b`, the call
with `b` returns 0, which is not the old length `2^32` of the buffer. -/
theorem C4_new_insertion_counterexample :
    find (internAll (Table.mk1 PrinterLanguage.PRINTER_LANG_CPP)
      [(97 :: List.replicate 4294967295 97, false)]).2.StringOffset [98] = none ∧
    (GetOrAddStringOffset (internAll (Table.mk1 PrinterLanguage.PRINTER_LANG_CPP)
      [(97 :: List.replicate 4294967295 97, false)]).2 [98] true).1 = 0 ∧
    (internAll (Table.mk1 PrinterLanguage.PRINTER_LANG_CPP)
      [(97 :: List.replicate 4294967295 97, false)]).2.AggregateString.length = 4294967296 ∧
    (0 : Nat) ≠ 4294967296 :=
  ⟨(wrapped_return PrinterLanguage.PRINTER_LANG_CPP 97 (List.replicate 4294967295 97)
      (by rw [List.length_cons, List.length_replicate]) (by decide)).1,
   (wrapped_return PrinterLanguage.PRINTER_LANG_CPP 97 (List.replicate 4294967295 97)
      (by rw [List.length_cons, List.length_replicate]) (by decide)).2.1,
   (wrapped_return PrinterLanguage.PRINTER_LANG_CPP 97 (List.replicate 4294967295 97)
      (by rw [List.length_cons, List.length_replicate]) (by decide)).2.2,
   by decide⟩

/-- Claim C5 (the buffer equals its reference definition). After any sequence
of calls on a fresh table the buffer is `referenceBuffer calls`: the blocks of
the first occurrences, in order, each block being the string followed by a zero
byte exactly when the flag of that first occurrence is set. The other conjuncts
pin the first occurrences down: their strings are pairwise different, they are
in call order, and a call is among them exactly when no earlier call has its
string; so each distinct string contributes one block, once. -/
theorem C5_buffer_reference (PL : PrinterLanguage) (calls : List (List Byte × Bool)) :
    (internAll (Table.mk1 PL) calls).2.AggregateString = referenceBuffer calls ∧
    ((firstOccurrences [] calls).map Prod.fst).Nodup ∧
    (firstOccurrences [] calls).Sublist calls ∧
    ∀ c, c ∈ firstOccurrences [] calls ↔
      ∃ pre post, calls = pre ++ c :: post ∧ ∀ d ∈ pre, d.1 ≠ c.1 := by
  refine ⟨?_, firstOccurrences_nodup calls [], firstOccurrences_sublist calls [], ?_⟩
  · rw [internAll_buffer]
    simp [Table.mk1, referenceBuffer]
  · intro c
    rw [firstOccurrences_mem]
    simp

theorem runOp_StringOffset_ne_nil (t : Table) (O : List Byte) (op : Op)
    (h : t.StringOffset ≠ []) : (runOp t O op).table.StringOffset ≠ [] := by
  cases op with
  | Empty => exact h
  | GetOrAddStringOffset s f =>
    simp only [runOp]
    cases hf : find t.StringOffset s with
    | some off => rw [GetOrAdd_found t s f off hf]; exact h
    | none => rw [GetOrAdd_new t s f hf]; simp
  | EmitString =>
    simp only [runOp, EmitString, PrintFatalNote, Run.andThen, EmitStringCPP]
    split <;> (try split) <;> exact h
  | EmitStringCPP =>
    simp only [runOp, EmitStringCPP]
    split <;> exact h
  | EmitCharArray =>
    simp only [runOp, EmitCharArray]
    split <;> exact h

theorem runOps_StringOffset_ne_nil (ops : List Op) (t : Table) (O : List Byte)
    (h : t.StringOffset ≠ []) : (runOps t O ops).table.StringOffset ≠ [] := by
  induction ops generalizing t O with
  | nil => exact h
  | cons op ops ih =>
    simp only [runOps, Run.andThen]
    have h1 := runOp_StringOffset_ne_nil t O op h
    split
    · exact ih _ _ h1
    · exact h1

theorem GetOrAdd_StringOffset_ne_nil (t : Table) (s : List Byte) (f : Bool) :
    (GetOrAddStringOffset t s f).2.StringOffset ≠ [] := by
  intro h
  have := GetOrAdd_find t s f
  rw [h] at this
  simp [find] at this

/-- Claim C6 (emptiness). `Empty()` is true on a table from either
constructor; it is false after a `GetOrAddStringOffset` call on any table, the
call with the empty string and no terminator on a fresh table included, and it
stays false after every later sequence of member calls. -/
theorem C6_emptiness :
    Empty Table.mk0 = true ∧ (∀ PL, Empty (Table.mk1 PL) = true) ∧
    (∀ (t : Table) (s : List Byte) (f : Bool), Empty (GetOrAddStringOffset t s f).2 = false) ∧
    (∀ PL, Empty (GetOrAddStringOffset (Table.mk1 PL) [] false).2 = false) ∧
    ∀ (t : Table) (s : List Byte) (f : Bool) (O : List Byte) (ops : List Op),
      Empty (runOps (GetOrAddStringOffset t s f).2 O ops).table = false := by
  have key : ∀ t : Table, t.StringOffset ≠ [] → Empty t = false := by
    intro t ht
    cases hm : t.StringOffset with
    | nil => exact absurd hm ht
    | cons e m => simp [Empty, hm]
  refine ⟨rfl, fun _ => rfl, ?_, ?_, ?_⟩
  · intro t s f
    exact key _ (GetOrAdd_StringOffset_ne_nil t s f)
  · intro PL
    exact key _ (GetOrAdd_StringOffset_ne_nil _ _ _)
  · intro t s f O ops
    exact key _ (runOps_StringOffset_ne_nil ops _ O (GetOrAdd_StringOffset_ne_nil t s f))

/-! ## Order of the offsets -/

/-- Claim C11, amended (offsets are monotone). In a sequence of calls on a
fresh table, when the call with `s` newly inserts `s` and a later call with `u`
newly inserts `u`, each of the two calls returns the length the buffer has at
that moment converted to `unsigned`, that is modulo `2^32`, and the buffer is
at least as long at the second moment as at the first. When the buffer is
shorter than `2^32` bytes at the second moment, each of the two offsets is the
length of the buffer at its moment, and the offset of `s` is at most the offset
of `u`. -/
theorem C11_offsets_monotone (PL : PrinterLanguage) (pre mid : List (List Byte × Bool))
    (s u : List Byte) (f g : Bool)
    (hs : find (internAll (Table.mk1 PL) pre).2.StringOffset s = none)
    (hu : find (internAll (Table.mk1 PL) (pre ++ (s, f) :: mid)).2.StringOffset u = none) :
    (GetOrAddStringOffset (internAll (Table.mk1 PL) pre).2 s f).1 = toUnsigned (internAll (Table.mk1 PL) pre).2.AggregateString.length ∧
    (GetOrAddStringOffset (internAll (Table.mk1 PL) (pre ++ (s, f) :: mid)).2 u g).1 = toUnsigned (internAll (Table.mk1 PL) (pre ++ (s, f) :: mid)).2.AggregateString.length ∧
    (internAll (Table.mk1 PL) pre).2.AggregateString.length ≤ (internAll (Table.mk1 PL) (pre ++ (s, f) :: mid)).2.AggregateString.length ∧
    ((internAll (Table.mk1 PL) (pre ++ (s, f) :: mid)).2.AggregateString.length < 4294967296 →
      (GetOrAddStringOffset (internAll (Table.mk1 PL) pre).2 s f).1 = (internAll (Table.mk1 PL) pre).2.AggregateString.length ∧
      (GetOrAddStringOffset (internAll (Table.mk1 PL) (pre ++ (s, f) :: mid)).2 u g).1 = (internAll (Table.mk1 PL) (pre ++ (s, f) :: mid)).2.AggregateString.length ∧
      (GetOrAddStringOffset (internAll (Table.mk1 PL) pre).2 s f).1 ≤ (GetOrAddStringOffset (internAll (Table.mk1 PL) (pre ++ (s, f) :: mid)).2 u g).1) := by
  have h1 : (GetOrAddStringOffset (internAll (Table.mk1 PL) pre).2 s f).1 = toUnsigned (internAll (Table.mk1 PL) pre).2.AggregateString.length := by
    rw [GetOrAdd_new _ s f hs]
  have h2 : (GetOrAddStringOffset (internAll (Table.mk1 PL) (pre ++ (s, f) :: mid)).2 u g).1 = toUnsigned (internAll (Table.mk1 PL) (pre ++ (s, f) :: mid)).2.AggregateString.length := by
    rw [GetOrAdd_new _ u g hu]
  have hgap := new_insertions_gap (internAll (Table.mk1 PL) pre).2 s f mid hs
  rw [← internAll_append] at hgap
  refine ⟨h1, h2, by omega, ?_⟩
  intro hlen
  rw [h1, h2, toUnsigned_of_lt _ hlen, toUnsigned_of_lt _ (by omega)]
  exact ⟨rfl, rfl, by omega⟩

theorem C11_offsets_monotone_witness :
    find (internAll (Table.mk1 PrinterLanguage.PRINTER_LANG_CPP)
      [([102, 111, 111], true)]).2.StringOffset [98] = none ∧
    find (internAll (Table.mk1 PrinterLanguage.PRINTER_LANG_CPP)
      ([([102, 111, 111], true)] ++ ([98], false) :: [([102, 111, 111], false)])).2.StringOffset
      [99] = none ∧
    (internAll (Table.mk1 PrinterLanguage.PRINTER_LANG_CPP)
      ([([102, 111, 111], true)] ++ ([98], false) ::
        [([102, 111, 111], false)])).2.AggregateString.length < 4294967296 ∧
    (GetOrAddStringOffset (internAll (Table.mk1 PrinterLanguage.PRINTER_LANG_CPP)
      [([102, 111, 111], true)]).2 [98] false).1 ≤
    (GetOrAddStringOffset (internAll (Table.mk1 PrinterLanguage.PRINTER_LANG_CPP)
      ([([102, 111, 111], true)] ++ ([98], false) :: [([102, 111, 111], false)])).2
      [99] true).1 :=
  ⟨by decide, by decide, by decide,
    ((C11_offsets_monotone PrinterLanguage.PRINTER_LANG_CPP [([102, 111, 111], true)]
      [([102, 111, 111], false)] [98] [99] false true (by decide) (by decide)).2.2.2
      (by decide)).2.2⟩

/-- The offsets of three new insertions on a fresh table: the one-letter string
`x`, a string of `2^32 - 1` bytes, and the string `b`, the first two without
terminator: 0, 1 and 0. -/
theorem wrapped_order (PL : PrinterLanguage) (a : Byte) (A : List Byte)
    (hlen : (a :: A).length = 4294967295) (ha : a ≠ 98) (hx : a ≠ 120) :
    find (internAll (Table.mk1 PL) [([120], false)]).2.StringOffset (a :: A) = none ∧
    find (internAll (Table.mk1 PL)
      ([([120], false)] ++ (a :: A, false) :: [])).2.StringOffset [98] = none ∧
    (GetOrAddStringOffset (internAll (Table.mk1 PL) [([120], false)]).2 (a :: A) false).1 = 1 ∧
    (GetOrAddStringOffset (internAll (Table.mk1 PL)
      ([([120], false)] ++ (a :: A, false) :: [])).2 [98] true).1 = 0 := by
  have hne : a :: A ≠ [98] := fun h => ha (List.cons.inj h).1
  have hnx : ([120] : List Byte) ≠ a :: A := fun h => hx (List.cons.inj h).1.symm
  have hb : (block (a :: A, false)).length = 4294967295 := by
    simp only [block, Bool.false_eq_true, if_false, List.append_nil]
    exact hlen
  have h2 := internAll_two PL [120] (a :: A) false false hnx
  have e2 : [([120], false)] ++ (a :: A, false) :: [] =
      ([([120], false), (a :: A, false)] : List (List Byte × Bool)) := rfl
  rw [e2, h2, internAll_one]
  have hf1 : find [(([120] : List Byte), 0)] (a :: A) = none := by simp [find, hnx]
  have hf2 : find [(([120] : List Byte), 0),
      (a :: A, toUnsigned (block (([120] : List Byte), false)).length)] [98] = none := by
    simp [find, hne]
  refine ⟨hf1, hf2, ?_, ?_⟩
  · rw [GetOrAdd_new _ _ _ hf1]
    rfl
  · rw [GetOrAdd_new _ _ _ hf2]
    simp only [List.length_append, hb]
    rfl

/-- Claim C11 fails as stated: after the one-letter string `x`, a string of
`2^32 - 1` letters `a` is newly inserted at offset 1, and after it the string
`b` is newly inserted at offset 0, which is smaller. -/
theorem C11_offsets_monotone_counterexample :
    find (internAll (Table.mk1 PrinterLanguage.PRINTER_LANG_CPP)
      [([120], false)]).2.StringOffset (97 :: List.replicate 4294967294 97) = none ∧
    find (internAll (Table.mk1 PrinterLanguage.PRINTER_LANG_CPP)
      ([([120], false)] ++ (97 :: List.replicate 4294967294 97, false) :: [])).2.StringOffset
      [98] = none ∧
    (GetOrAddStringOffset (internAll (Table.mk1 PrinterLanguage.PRINTER_LANG_CPP)
      [([120], false)]).2 (97 :: List.replicate 4294967294 97) false).1 = 1 ∧
    (GetOrAddStringOffset (internAll (Table.mk1 PrinterLanguage.PRINTER_LANG_CPP)
      ([([120], false)] ++ (97 :: List.replicate 4294967294 97, false) :: [])).2
      [98] true).1 = 0 ∧
    ¬ (1 : Nat) ≤ 0 :=
  ⟨(wrapped_order PrinterLanguage.PRINTER_LANG_CPP 97 (List.replicate 4294967294 97)
      (by rw [List.length_cons, List.length_replicate]) (by decide) (by decide)).1,
   (wrapped_order PrinterLanguage.PRINTER_LANG_CPP 97 (List.replicate 4294967294 97)
      (by rw [List.length_cons, List.length_replicate]) (by decide) (by decide)).2.1,
   (wrapped_order PrinterLanguage.PRINTER_LANG_CPP 97 (List.replicate 4294967294 97)
      (by rw [List.length_cons, List.length_replicate]) (by decide) (by decide)).2.2.1,
   (wrapped_order PrinterLanguage.PRINTER_LANG_CPP 97 (List.replicate 4294967294 97)
      (by rw [List.length_cons, List.length_replicate]) (by decide) (by decide)).2.2.2,
   by decide⟩

theorem Separated_GetOrAdd (t : Table) (s : List Byte) (f : Bool) (hS : Separated t)
    (hb : find t.StringOffset s = none → block (s, f) ≠ [])
    (hlen : t.AggregateString.length < 4294967296) :
    Separated (GetOrAddStringOffset t s f).2 := by
  cases h : find t.StringOffset s with
  | some off => rw [GetOrAdd_found t s f off h]; exact hS
  | none =>
    rw [GetOrAdd_new t s f h, toUnsigned_of_lt _ hlen]
    have hpos : 0 < (block (s, f)).length := List.length_pos.mpr (hb h)
    obtain ⟨h1, h2⟩ := hS
    constructor
    · intro e he
      simp only [List.mem_append, List.mem_singleton] at he
      simp only [List.length_append]
      rcases he with he | he
      · have := h1 e he; omega
      · subst he; simp only; omega
    · intro e1 he1 e2 he2 hne
      simp only [List.mem_append, List.mem_singleton] at he1 he2
      rcases he1 with he1 | he1 <;> rcases he2 with he2 | he2
      · exact h2 e1 he1 e2 he2 hne
      · subst he2; have := h1 e1 he1; simp only; omega
      · subst he1; have := h1 e2 he2; simp only; omega
      · subst he1; subst he2; exact absurd rfl hne

/-- With every terminator flag set, and as long as the buffer stays shorter
than `2^32` bytes, every recorded offset lies inside the buffer and different
keys have different offsets. -/
theorem Separated_internAll (calls : List (List Byte × Bool)) (t : Table) (hS : Separated t)
    (hall : ∀ c ∈ calls, c.2 = true)
    (hlen : (internAll t calls).2.AggregateString.length < 4294967296) :
    Separated (internAll t calls).2 := by
  induction calls generalizing t with
  | nil => exact hS
  | cons c calls ih =>
    obtain ⟨s, f⟩ := c
    have hf : f = true := hall (s, f) (List.mem_cons_self _ _)
    rw [internAll_cons] at hlen ⊢
    have hmono := internAll_length_le calls (GetOrAddStringOffset t s f).2
    have hstep : t.AggregateString.length ≤
        (GetOrAddStringOffset t s f).2.AggregateString.length := by
      cases h : find t.StringOffset s with
      | some off => rw [GetOrAdd_found t s f off h]
      | none =>
        rw [GetOrAdd_new t s f h]
        simp only [List.length_append]
        omega
    apply ih _ _ (fun c hc => hall c (List.mem_cons_of_mem _ hc)) hlen
    apply Separated_GetOrAdd t s f hS
    · intro _
      exact block_ne_nil s f (fun _ => hf)
    · simp only at hlen
      omega

theorem Separated_mk1 (PL : PrinterLanguage) : Separated (Table.mk1 PL) := by
  constructor
  · intro e he; simp [Table.mk1] at he
  · intro e he; simp [Table.mk1] at he

/-- Claim C17, amended (with the terminator on, offsets identify strings), for
buffers shorter than `2^32` bytes. First part: when a call newly inserts `s`, a
later call newly inserts `u`, and the buffer is shorter than `2^32` bytes when
`u` is inserted, then the offset of `s` is strictly below the offset of `u`
unless `s` is the empty string interned without terminator; so the two new
insertions share an offset only if the earlier one is the empty string with
`appendZero = false`. Second part: when every call passes `appendZero = true`
and the final buffer is shorter than `2^32` bytes, different keys of the final
map have different offsets: the map from interned strings to offsets is
injective. -/
theorem C17_offsets_identify_strings (PL : PrinterLanguage) :
    (∀ (pre mid : List (List Byte × Bool)) (s u : List Byte) (f g : Bool),
      find (internAll (Table.mk1 PL) pre).2.StringOffset s = none →
      find (internAll (Table.mk1 PL) (pre ++ (s, f) :: mid)).2.StringOffset u = none →
      (internAll (Table.mk1 PL) (pre ++ (s, f) :: mid)).2.AggregateString.length < 4294967296 →
      ((s ≠ [] ∨ f = true) →
        (GetOrAddStringOffset (internAll (Table.mk1 PL) pre).2 s f).1 < (GetOrAddStringOffset (internAll (Table.mk1 PL) (pre ++ (s, f) :: mid)).2 u g).1) ∧
      ((GetOrAddStringOffset (internAll (Table.mk1 PL) pre).2 s f).1 = (GetOrAddStringOffset (internAll (Table.mk1 PL) (pre ++ (s, f) :: mid)).2 u g).1 →
        s = [] ∧ f = false)) ∧
    (∀ calls : List (List Byte × Bool), (∀ c ∈ calls, c.2 = true) →
      (internAll (Table.mk1 PL) calls).2.AggregateString.length < 4294967296 →
      ∀ e1 ∈ (internAll (Table.mk1 PL) calls).2.StringOffset,
      ∀ e2 ∈ (internAll (Table.mk1 PL) calls).2.StringOffset,
        e1.1 ≠ e2.1 → e1.2 ≠ e2.2) := by
  constructor
  · intro pre mid s u f g hs hu hlen
    have hgap := new_insertions_gap (internAll (Table.mk1 PL) pre).2 s f mid hs
    rw [← internAll_append] at hgap
    have h1 : (GetOrAddStringOffset (internAll (Table.mk1 PL) pre).2 s f).1 = (internAll (Table.mk1 PL) pre).2.AggregateString.length := by
      rw [GetOrAdd_new _ s f hs]
      exact toUnsigned_of_lt _ (by omega)
    have h2 : (GetOrAddStringOffset (internAll (Table.mk1 PL) (pre ++ (s, f) :: mid)).2 u g).1 = (internAll (Table.mk1 PL) (pre ++ (s, f) :: mid)).2.AggregateString.length := by
      rw [GetOrAdd_new _ u g hu]
      exact toUnsigned_of_lt _ hlen
    have hlt : (s ≠ [] ∨ f = true) →
        (GetOrAddStringOffset (internAll (Table.mk1 PL) pre).2 s f).1 < (GetOrAddStringOffset (internAll (Table.mk1 PL) (pre ++ (s, f) :: mid)).2 u g).1 := by
      intro hne
      have hb : 0 < (block (s, f)).length := by
        apply List.length_pos.mpr
        apply block_ne_nil
        intro hs0
        rcases hne with hne | hne
        · exact absurd hs0 hne
        · exact hne
      rw [h1, h2]
      omega
    refine ⟨hlt, ?_⟩
    intro heq
    by_contra hcon
    have hne : s ≠ [] ∨ f = true := by
      by_cases hs0 : s = []
      · right
        cases f with
        | true => rfl
        | false => exact absurd ⟨hs0, rfl⟩ hcon
      · exact Or.inl hs0
    have := hlt hne
    omega
  · intro calls hall hlen e1 he1 e2 he2 hne
    exact (Separated_internAll calls (Table.mk1 PL) (Separated_mk1 PL) hall hlen).2
      e1 he1 e2 he2 hne

theorem C17_offsets_identify_strings_witness :
    (GetOrAddStringOffset (internAll (Table.mk1 PrinterLanguage.PRINTER_LANG_CPP)
      [([], true)]).2 [98] true).1 <
    (GetOrAddStringOffset (internAll (Table.mk1 PrinterLanguage.PRINTER_LANG_CPP)
      ([([], true)] ++ ([98], true) :: [([], true)])).2 [99] true).1 ∧
    (([] : List Byte), 0) ∈ (internAll (Table.mk1 PrinterLanguage.PRINTER_LANG_CPP)
      [([], true), ([98], true)]).2.StringOffset ∧
    (([98] : List Byte), 1) ∈ (internAll (Table.mk1 PrinterLanguage.PRINTER_LANG_CPP)
      [([], true), ([98], true)]).2.StringOffset ∧
    (0 : Nat) ≠ 1 :=
  ⟨((C17_offsets_identify_strings PrinterLanguage.PRINTER_LANG_CPP).1 [([], true)]
      [([], true)] [98] [99] true true (by decide) (by decide) (by decide)).1 (Or.inr rfl),
   by decide, by decide,
   (C17_offsets_identify_strings PrinterLanguage.PRINTER_LANG_CPP).2
      [([], true), ([98], true)] (by decide) (by decide) ([], 0) (by decide) ([98], 1)
      (by decide) (by decide)⟩

/-- Claim C17 fails as stated: with `appendZero = true` in both calls, a
string of `2^32 - 1` letters `a` and then the string `b` are both recorded with
offset 0, so two different keys share an offset although the earlier one is not
the empty string and has its terminator. -/
theorem C17_offsets_identify_strings_counterexample :
    (97 :: List.replicate 4294967294 97 : List Byte) ≠ [98] ∧
    (internAll (Table.mk1 PrinterLanguage.PRINTER_LANG_CPP)
      [(97 :: List.replicate 4294967294 97, true), ([98], true)]).2.StringOffset =
      [(97 :: List.replicate 4294967294 97, 0), ([98], 0)] ∧
    (internAll (Table.mk1 PrinterLanguage.PRINTER_LANG_CPP)
      [(97 :: List.replicate 4294967294 97, true), ([98], true)]).1 = [0, 0] :=
  ⟨(wrapped_offsets PrinterLanguage.PRINTER_LANG_CPP 97 (List.replicate 4294967294 97)
      (by rw [List.length_cons, List.length_replicate]) (by decide)).1,
   congrArg (fun r => r.2.StringOffset)
      (wrapped_offsets PrinterLanguage.PRINTER_LANG_CPP 97 (List.replicate 4294967294 97)
        (by rw [List.length_cons, List.length_replicate]) (by decide)).2,
   congrArg Prod.fst
      (wrapped_offsets PrinterLanguage.PRINTER_LANG_CPP 97 (List.replicate 4294967294 97)
        (by rw [List.length_cons, List.length_replicate]) (by decide)).2⟩

/-! ## Properties of the emission -/

theorem isToken_escapeByte (c : Byte) : isToken (escapeByte c) = true := by
  revert c; decide

theorem charAt_append_right (pre s : List Byte) (k : Nat) :
    charAt (pre ++ s) (pre.length + k) = charAt s k := by
  simp [charAt, List.getD_eq_getElem?_getD, List.getElem?_append_right]

theorem charAt_append_right0 (pre s : List Byte) :
    charAt (pre ++ s) pre.length = charAt s 0 := by
  simpa using charAt_append_right pre s 0

/-- The three shapes of a token, as the loop tests them. -/
theorem isToken_cases (tok : List Byte) (h : isToken tok = true) :
    (∃ c, tok = [c] ∧ c ≠ 92) ∨
    (∃ d, tok = [92, d] ∧ isdigit d = false) ∨
    (∃ d1 d2 d3, tok = [92, d1, d2, d3] ∧ isdigit d1 = true ∧ isdigit d2 = true ∧
      isdigit d3 = true) := by
  match tok, h with
  | [c], h =>
    left
    refine ⟨c, rfl, ?_⟩
    simp [isToken] at h
    exact h.1.2
  | [b, d], h =>
    right; left
    simp only [isToken, Bool.and_eq_true, beq_iff_eq, Bool.or_eq_true] at h
    obtain ⟨hb, hd⟩ := h
    subst hb
    refine ⟨d, rfl, ?_⟩
    rcases hd with ((hd | hd) | hd) | hd <;> subst hd <;> decide
  | [b, d1, d2, d3], h =>
    right; right
    simp only [isToken, Bool.and_eq_true, beq_iff_eq, isOctal, decide_eq_true_eq] at h
    obtain ⟨⟨⟨hb, h1⟩, h2⟩, h3⟩ := h
    subst hb
    refine ⟨d1, d2, d3, rfl, ?_, ?_, ?_⟩ <;>
      simp only [isdigit, Bool.and_eq_true, decide_eq_true_eq] <;> omega

/-- One iteration of the loop at the start of a token, when the token ends at
or before position `2^32`, so that no index wraps while it is read, consumes
the whole token: it writes the separator first when the counter exceeds 70,
then the token, advances the counter by the width of the token and the index to
the end of the token, converted to `unsigned`. -/
theorem loop_step (pre tok post : List Byte) (h : isToken tok = true)
    (e fuel cp : Nat) (O : List Byte) (hne : pre.length ≠ e)
    (hw : pre.length + tok.length ≤ 4294967296) :
    EmitStringCPP.loop (pre ++ (tok ++ post)) e (fuel + 1) pre.length cp O =
      EmitStringCPP.loop (pre ++ (tok ++ post)) e fuel (toUnsigned (pre.length + tok.length))
        ((if cp > 70 then 0 else cp) + tok.length)
        ((if cp > 70 then O ++ separator else O) ++ tok) := by
  rcases isToken_cases tok h with ⟨c, rfl, hc⟩ | ⟨d, rfl, hd⟩ | ⟨d1, d2, d3, rfl, h1, h2, h3⟩
  · have h0 : charAt (pre ++ ([c] ++ post)) pre.length = c := by
      rw [charAt_append_right0]; rfl
    rw [EmitStringCPP.loop]
    simp only [hne, if_false, h0, hc, ne_eq, not_false_eq_true, if_true, List.length_cons,
      List.length_nil, decide_eq_true_eq, separator]
  · simp only [List.length_cons, List.length_nil] at hw
    have hlt : pre.length + 1 < (pre ++ ([92, d] ++ post)).length := by
      simp only [List.length_append, List.length_cons, List.length_nil]; omega
    have t1 : toUnsigned (pre.length + 1) = pre.length + 1 := toUnsigned_of_lt _ (by omega)
    have h0 : charAt (pre ++ ([92, d] ++ post)) pre.length = 92 := by
      rw [charAt_append_right0]; rfl
    have h1 : charAt (pre ++ ([92, d] ++ post)) (pre.length + 1) = d := by
      rw [charAt_append_right]; rfl
    rw [EmitStringCPP.loop]
    simp only [hne, if_false, t1, h0, h1, hd, hlt, ne_eq, not_true_eq_false, not_false_eq_true,
      if_true, List.length_cons, List.length_nil, decide_eq_true_eq, separator]
    by_cases hcp : cp > 70 <;> simp [hcp]
  · simp only [List.length_cons, List.length_nil] at hw
    have hlt : pre.length + 1 < (pre ++ ([92, d1, d2, d3] ++ post)).length := by
      simp only [List.length_append, List.length_cons, List.length_nil]; omega
    have t1 : toUnsigned (pre.length + 1) = pre.length + 1 := toUnsigned_of_lt _ (by omega)
    have t2 : toUnsigned (pre.length + 2) = pre.length + 2 := toUnsigned_of_lt _ (by omega)
    have t3 : toUnsigned (pre.length + 3) = pre.length + 3 := toUnsigned_of_lt _ (by omega)
    have h0 : charAt (pre ++ ([92, d1, d2, d3] ++ post)) pre.length = 92 := by
      rw [charAt_append_right0]; rfl
    have c1 : charAt (pre ++ ([92, d1, d2, d3] ++ post)) (pre.length + 1) = d1 := by
      rw [charAt_append_right]; rfl
    have c2 : charAt (pre ++ ([92, d1, d2, d3] ++ post)) (pre.length + 2) = d2 := by
      rw [charAt_append_right]; rfl
    have c3 : charAt (pre ++ ([92, d1, d2, d3] ++ post)) (pre.length + 3) = d3 := by
      rw [charAt_append_right]; rfl
    rw [EmitStringCPP.loop]
    simp only [hne, if_false, t1, t2, t3, h0, c1, c2, c3, h1, h2, h3, hlt, ne_eq,
      not_true_eq_false, not_false_eq_true, and_self, if_true, List.length_cons, List.length_nil,
      decide_eq_true_eq, separator]
    by_cases hcp : cp > 70 <;> simp [hcp]

theorem groupTokens_ne_nil (cp : Nat) (toks : List (List Byte)) : groupTokens cp toks ≠ [] := by
  cases toks with
  | nil => simp [groupTokens]
  | cons tok toks =>
    simp only [groupTokens]
    split
    · simp
    · cases groupTokens (cp + tok.length) toks <;> simp [consHead]

theorem joinFragments_consHead (tok : List Byte) (gs : List (List (List Byte))) (h : gs ≠ []) :
    joinFragments ((consHead tok gs).map List.flatten) =
      tok ++ joinFragments (gs.map List.flatten) := by
  match gs, h with
  | [g], _ => simp [consHead, joinFragments]
  | g :: g2 :: rest, _ => simp [consHead, joinFragments, List.append_assoc]

theorem joinFragments_nil_cons (gs : List (List Byte)) (h : gs ≠ []) :
    joinFragments ([] :: gs) = separator ++ joinFragments gs := by
  match gs, h with
  | g :: rest, _ => simp [joinFragments]

theorem isToken_length (tok : List Byte) (h : isToken tok = true) :
    1 ≤ tok.length ∧ tok.length ≤ 4 := by
  rcases isToken_cases tok h with ⟨c, rfl, _⟩ | ⟨d, rfl, _⟩ | ⟨d1, d2, d3, rfl, _⟩ <;> simp

/-- The loop, started at a token boundary of text made of tokens only and
shorter than `2^32` bytes, with the length of the text as bound, returns and
writes the fragments that `groupTokens` describes, joined by the separator. -/
theorem loop_tokens (toks : List (List Byte)) (hall : ∀ tok ∈ toks, isToken tok = true)
    (pre : List Byte) (cp : Nat) (O : List Byte) (fuel : Nat) (hf : toks.length < fuel)
    (hs : (pre ++ toks.flatten).length < 4294967296) :
    EmitStringCPP.loop (pre ++ toks.flatten) (pre ++ toks.flatten).length fuel pre.length cp O =
      (Status.returned, O ++ joinFragments ((groupTokens cp toks).map List.flatten)) := by
  induction toks generalizing pre cp O fuel with
  | nil =>
    cases fuel with
    | zero => omega
    | succ fuel =>
      rw [EmitStringCPP.loop]
      simp [groupTokens, joinFragments]
  | cons tok toks ih =>
    cases fuel with
    | zero => omega
    | succ fuel =>
      have htok := hall tok (List.mem_cons_self _ _)
      have hrest : ∀ x ∈ toks, isToken x = true := fun x hx => hall x (List.mem_cons_of_mem _ hx)
      have hpos := (isToken_length tok htok).1
      have hlen : (pre ++ (tok ++ toks.flatten)).length =
          pre.length + tok.length + toks.flatten.length := by
        simp only [List.length_append]; omega
      rw [List.flatten_cons] at hs ⊢
      rw [loop_step pre tok toks.flatten htok _ fuel cp O (by omega) (by omega),
        toUnsigned_of_lt _ (by omega)]
      have e1 : pre ++ (tok ++ toks.flatten) = (pre ++ tok) ++ toks.flatten := by
        rw [List.append_assoc]
      have e2 : pre.length + tok.length = (pre ++ tok).length := by
        rw [List.length_append]
      rw [e1] at hs ⊢
      rw [e2, ih hrest (pre ++ tok) _ _ fuel (by simp only [List.length_cons] at hf; omega) hs]
      congr 1
      by_cases hcp : cp > 70
      · simp only [hcp, if_true, groupTokens, List.map_cons, List.flatten_nil, Nat.zero_add]
        rw [joinFragments_nil_cons _ (by
          intro h
          have := congrArg List.length h
          have h2 := groupTokens_ne_nil tok.length toks
          cases hg : groupTokens tok.length toks with
          | nil => exact h2 hg
          | cons g gs => rw [hg] at this; simp [consHead] at this),
          joinFragments_consHead _ _ (groupTokens_ne_nil _ _)]
        simp [List.append_assoc]
      · simp only [hcp, if_false, groupTokens]
        rw [joinFragments_consHead _ _ (groupTokens_ne_nil _ _)]
        simp [List.append_assoc]

theorem write_escaped_eq (raw : List Byte) :
    write_escaped raw = (raw.map escapeByte).flatten := by
  induction raw with
  | nil => rfl
  | cons c raw ih => simp [write_escaped, ih]

theorem length_le_write_escaped (raw : List Byte) : raw.length ≤ (write_escaped raw).length := by
  induction raw with
  | nil => simp
  | cons c raw ih =>
    have := (isToken_length _ (isToken_escapeByte c)).1
    simp only [write_escaped, List.length_cons, List.length_append]
    omega

/-- What `EmitStringCPP` does on a table whose escaped buffer is shorter than
`2^32` bytes: it returns, the buffer is replaced by its escaped form, and the
text written is the opening delimiter, the fragments joined by the separator,
and the closing quote. -/
theorem EmitStringCPP_eq (t : Table) (O : List Byte)
    (hs : (write_escaped t.AggregateString).length < 4294967296) :
    EmitStringCPP t O =
      { status := Status.returned,
        table := { t with AggregateString := write_escaped t.AggregateString },
        O := O ++ [32, 32, 32, 32, 34] ++
          joinFragments ((groupTokens 0 (t.AggregateString.map escapeByte)).map List.flatten) ++
          [34] } := by
  have h := loop_tokens (t.AggregateString.map escapeByte)
    (by
      intro tok htok
      obtain ⟨c, _, rfl⟩ := List.mem_map.mp htok
      exact isToken_escapeByte c)
    [] 0 (O ++ [32, 32, 32, 32, 34]) ((write_escaped t.AggregateString).length + 1)
    (by
      have := length_le_write_escaped t.AggregateString
      simp only [List.length_map]; omega)
    (by simpa only [List.nil_append, ← write_escaped_eq] using hs)
  simp only [List.nil_append, ← write_escaped_eq, List.length_nil] at h
  simp only [EmitStringCPP, toUnsigned_of_lt _ hs, h]

theorem splitLines_ne_nil (a : List Byte) : splitLines a ≠ [] := by
  induction a with
  | nil => simp [splitLines]
  | cons c a ih =>
    simp only [splitLines]
    split
    · simp
    · split <;> simp

theorem splitLines_append (a rest : List Byte) (h : (10 : Byte) ∉ a) :
    splitLines (a ++ 10 :: rest) = a :: splitLines rest := by
  induction a with
  | nil => simp [splitLines]
  | cons c a ih =>
    have hc : c ≠ 10 := fun hc => h (by simp [hc])
    have ha : (10 : Byte) ∉ a := fun ha => h (List.mem_cons_of_mem _ ha)
    rw [List.cons_append, splitLines]
    simp only [hc, if_false]
    rw [ih ha]

theorem splitLines_single (a : List Byte) (h : (10 : Byte) ∉ a) : splitLines a = [a] := by
  induction a with
  | nil => simp [splitLines]
  | cons c a ih =>
    have hc : c ≠ 10 := fun hc => h (by simp [hc])
    have ha : (10 : Byte) ∉ a := fun ha => h (List.mem_cons_of_mem _ ha)
    simp only [splitLines, hc, if_false, ih ha]

theorem unquoteLine_quoted (g : List Byte) :
    unquoteLine ([32, 32, 32, 32, 34] ++ g ++ [34]) = some g := by
  have h1 : ([32, 32, 32, 32, 34] ++ g ++ [34]).getLast? = some 34 := by
    rw [List.getLast?_append]; rfl
  have h2 : 6 ≤ ([32, 32, 32, 32, 34] ++ g ++ [34]).length := by
    simp only [List.length_append, List.length_cons, List.length_nil]; omega
  have h3 : ([32, 32, 32, 32, 34] ++ g ++ [34]).take 5 = [32, 32, 32, 32, 34] := by
    simp
  have h4 : (([32, 32, 32, 32, 34] ++ g ++ [34]).drop 5).dropLast = g := by
    simp
  rw [unquoteLine, if_pos ⟨h3, h2, h1⟩, h4]

theorem allSome_map_some (gs : List (List Byte)) (f : List Byte → List Byte)
    (h : ∀ g ∈ gs, unquoteLine (f g) = some g) :
    allSome ((gs.map f).map unquoteLine) = some gs := by
  induction gs with
  | nil => rfl
  | cons g gs ih =>
    simp only [List.map_cons, h g (List.mem_cons_self _ _), allSome,
      ih (fun x hx => h x (List.mem_cons_of_mem _ hx)), Option.map_some']

/-- The lines of a text made of fragments without newline. -/
theorem splitLines_joinFragments (gs : List (List Byte)) (hne : gs ≠ [])
    (hnl : ∀ g ∈ gs, (10 : Byte) ∉ g) :
    splitLines ([32, 32, 32, 32, 34] ++ joinFragments gs ++ [34]) =
      gs.map (fun g => [32, 32, 32, 32, 34] ++ g ++ [34]) := by
  induction gs with
  | nil => exact absurd rfl hne
  | cons g gs ih =>
    have hg := hnl g (List.mem_cons_self _ _)
    cases gs with
    | nil =>
      simp only [joinFragments, List.map_cons, List.map_nil]
      apply splitLines_single
      simp only [List.mem_append, List.mem_cons, List.mem_singleton, not_or]
      simp [hg]
    | cons g2 rest =>
      have ih2 := ih (by simp) (fun x hx => hnl x (List.mem_cons_of_mem _ hx))
      have e : [32, 32, 32, 32, 34] ++ joinFragments (g :: g2 :: rest) ++ [34] =
          ([32, 32, 32, 32, 34] ++ g ++ [34]) ++
            10 :: ([32, 32, 32, 32, 34] ++ joinFragments (g2 :: rest) ++ [34]) := by
        simp [joinFragments, separator, List.append_assoc]
      rw [e, splitLines_append, ih2]
      · simp
      · simp only [List.mem_append, List.mem_cons, List.mem_singleton, not_or]
        simp [hg]

/-- Parsing the text of fragments without newline gives the fragments back. -/
theorem fragments_joinFragments (gs : List (List Byte)) (hne : gs ≠ [])
    (hnl : ∀ g ∈ gs, (10 : Byte) ∉ g) :
    fragments ([32, 32, 32, 32, 34] ++ joinFragments gs ++ [34]) = some gs := by
  rw [fragments, splitLines_joinFragments gs hne hnl]
  exact allSome_map_some gs _ (fun g _ => unquoteLine_quoted g)

theorem isToken_no_newline (tok : List Byte) (h : isToken tok = true) : (10 : Byte) ∉ tok := by
  intro hmem
  match tok, h with
  | [c], h =>
    simp only [List.mem_singleton] at hmem
    subst hmem
    revert h; decide
  | [b, d], h =>
    simp only [isToken, Bool.and_eq_true, beq_iff_eq, Bool.or_eq_true] at h
    obtain ⟨hb, hd⟩ := h
    subst hb
    rcases hd with ((hd | hd) | hd) | hd <;> subst hd <;> revert hmem <;> decide
  | [b, d1, d2, d3], h =>
    simp only [isToken, Bool.and_eq_true, beq_iff_eq, isOctal, decide_eq_true_eq] at h
    obtain ⟨⟨⟨hb, h1⟩, h2⟩, h3⟩ := h
    subst hb
    simp only [List.mem_cons, List.mem_singleton, List.mem_nil_iff, or_false] at hmem
    rcases hmem with hm | hm | hm | hm
    · revert hm; decide
    · subst hm; exact absurd h1 (by decide)
    · subst hm; exact absurd h2 (by decide)
    · subst hm; exact absurd h3 (by decide)

theorem groupTokens_flatten (cp : Nat) (toks : List (List Byte)) :
    (groupTokens cp toks).flatten = toks := by
  induction toks generalizing cp with
  | nil => simp [groupTokens]
  | cons tok toks ih =>
    have key : ∀ gs : List (List (List Byte)), (consHead tok gs).flatten = tok :: gs.flatten := by
      intro gs
      cases gs <;> simp [consHead]
    simp only [groupTokens]
    split
    · simp [key, ih]
    · simp [key, ih]

theorem groupTokens_mem (cp : Nat) (toks : List (List Byte)) (g : List (List Byte))
    (hg : g ∈ groupTokens cp toks) (tok : List Byte) (ht : tok ∈ g) : tok ∈ toks := by
  rw [← groupTokens_flatten cp toks]
  exact List.mem_flatten.mpr ⟨g, hg, ht⟩

/-- The fragments of the text written by `EmitStringCPP`, when the escaped
buffer is shorter than `2^32` bytes. -/
theorem fragments_written (t : Table) (O : List Byte)
    (hs : (write_escaped t.AggregateString).length < 4294967296) :
    fragments (written O (EmitStringCPP t O)) =
      some ((groupTokens 0 (t.AggregateString.map escapeByte)).map List.flatten) := by
  rw [EmitStringCPP_eq t O hs]
  simp only [written, List.append_assoc, List.drop_left]
  rw [← List.append_assoc]
  apply fragments_joinFragments
  · simpa using groupTokens_ne_nil _ _
  · intro g hg
    obtain ⟨grp, hgrp, rfl⟩ := List.mem_map.mp hg
    intro hmem
    obtain ⟨tok, htok, h10⟩ := List.mem_flatten.mp hmem
    have h1 := groupTokens_mem _ _ grp hgrp tok htok
    obtain ⟨c, _, rfl⟩ := List.mem_map.mp h1
    exact isToken_no_newline _ (isToken_escapeByte c) h10

theorem unescape_escapeByte (c : Byte) : unescape (escapeByte c) = some [c] := by
  revert c; decide

theorem unescape_plain (c : Byte) (rest : List Byte) (hc : c ≠ 92) :
    unescape (c :: rest) = (unescape rest).map (fun r => c :: r) := by
  rw [unescape.eq_def]
  simp only [hc, ne_eq, not_false_eq_true, if_true]

theorem unescape_backslash (rest : List Byte) :
    unescape (92 :: 92 :: rest) = (unescape rest).map (fun r => 92 :: r) := by
  rw [unescape.eq_def]
  simp

theorem unescape_tab (rest : List Byte) :
    unescape (92 :: 116 :: rest) = (unescape rest).map (fun r => 9 :: r) := by
  rw [unescape.eq_def]
  simp

theorem unescape_newline (rest : List Byte) :
    unescape (92 :: 110 :: rest) = (unescape rest).map (fun r => 10 :: r) := by
  rw [unescape.eq_def]
  simp

theorem unescape_quote (rest : List Byte) :
    unescape (92 :: 34 :: rest) = (unescape rest).map (fun r => 34 :: r) := by
  rw [unescape.eq_def]
  simp

theorem unescape_octal (d1 d2 d3 : Byte) (rest : List Byte)
    (h1 : isOctal d1 = true) (h2 : isOctal d2 = true) (h3 : isOctal d3 = true) :
    unescape (92 :: d1 :: d2 :: d3 :: rest) =
      if (d1.val - 48) * 64 + (d2.val - 48) * 8 + (d3.val - 48) < 256 then
        (unescape rest).map
          (fun r => Fin.ofNat ((d1.val - 48) * 64 + (d2.val - 48) * 8 + (d3.val - 48)) :: r)
      else none := by
  have n1 : d1 ≠ 92 := by rintro rfl; exact absurd h1 (by decide)
  have n2 : d1 ≠ 116 := by rintro rfl; exact absurd h1 (by decide)
  have n3 : d1 ≠ 110 := by rintro rfl; exact absurd h1 (by decide)
  have n4 : d1 ≠ 34 := by rintro rfl; exact absurd h1 (by decide)
  rw [unescape.eq_def]
  simp only [ne_eq, not_true_eq_false, if_false, n1, n2, n3, n4, h1, h2, h3, Bool.true_and,
    Bool.and_true, decide_eq_true_eq]

/-- Reading a token followed by more text reads the token, then the text. -/
theorem unescape_token_append (tok : List Byte) (h : isToken tok = true) (rest : List Byte) :
    unescape (tok ++ rest) =
      (unescape tok).bind (fun a => (unescape rest).map (fun r => a ++ r)) := by
  match tok, h with
  | [c], h =>
    simp only [isToken, Bool.and_eq_true, bne_iff_ne, ne_eq] at h
    have hc : c ≠ 92 := h.1.2
    rw [List.singleton_append, unescape_plain c rest hc, unescape_plain c [] hc]
    cases unescape rest <;> rfl
  | [b, d], h =>
    simp only [isToken, Bool.and_eq_true, beq_iff_eq, Bool.or_eq_true] at h
    obtain ⟨hb, hd⟩ := h
    subst hb
    rcases hd with ((hd | hd) | hd) | hd <;> subst hd
    · rw [List.cons_append, List.cons_append, List.nil_append, unescape_backslash,
        unescape_backslash]
      cases unescape rest <;> rfl
    · rw [List.cons_append, List.cons_append, List.nil_append, unescape_tab, unescape_tab]
      cases unescape rest <;> rfl
    · rw [List.cons_append, List.cons_append, List.nil_append, unescape_newline,
        unescape_newline]
      cases unescape rest <;> rfl
    · rw [List.cons_append, List.cons_append, List.nil_append, unescape_quote, unescape_quote]
      cases unescape rest <;> rfl
  | [b, d1, d2, d3], h =>
    simp only [isToken, Bool.and_eq_true, beq_iff_eq] at h
    obtain ⟨⟨⟨hb, h1⟩, h2⟩, h3⟩ := h
    subst hb
    rw [List.cons_append, List.cons_append, List.cons_append, List.cons_append, List.nil_append,
      unescape_octal d1 d2 d3 rest h1 h2 h3, unescape_octal d1 d2 d3 [] h1 h2 h3]
    split
    · cases unescape rest <;> rfl
    · rfl

theorem unescape_write_escaped (raw : List Byte) : unescape (write_escaped raw) = some raw := by
  induction raw with
  | nil => rfl
  | cons c raw ih =>
    rw [write_escaped, unescape_token_append _ (isToken_escapeByte c), unescape_escapeByte, ih]
    rfl

theorem flatten_map_flatten (gs : List (List (List Byte))) :
    (gs.map List.flatten).flatten = gs.flatten.flatten := by
  induction gs with
  | nil => rfl
  | cons g gs ih => simp [ih]

theorem EmitStringCPP_status (t : Table) (O : List Byte)
    (hs : (write_escaped t.AggregateString).length < 4294967296) :
    (EmitStringCPP t O).status = Status.returned := by
  rw [EmitStringCPP_eq t O hs]

theorem EmitStringCPP_O (t : Table) (O : List Byte)
    (hs : (write_escaped t.AggregateString).length < 4294967296) :
    (EmitStringCPP t O).O = O ++ written O (EmitStringCPP t O) := by
  rw [EmitStringCPP_eq t O hs]
  simp [written, List.append_assoc]

/-- The table after `EmitStringCPP`, however the call ends: the buffer is
replaced by its escaped form before the loop, nothing else is touched. -/
theorem EmitStringCPP_table (t : Table) (O : List Byte) :
    (EmitStringCPP t O).table =
      { t with AggregateString := write_escaped t.AggregateString } := by
  simp only [EmitStringCPP]
  split <;> rfl

/-- The text written by `EmitStringCPP` when the escaped buffer is shorter than
`2^32` bytes: opening delimiter, fragments joined by the separator, closing
quote. -/
theorem written_EmitStringCPP (t : Table) (O : List Byte)
    (hs : (write_escaped t.AggregateString).length < 4294967296) :
    written O (EmitStringCPP t O) =
      [32, 32, 32, 32, 34] ++
        joinFragments ((groupTokens 0 (t.AggregateString.map escapeByte)).map List.flatten) ++
        [34] := by
  rw [EmitStringCPP_eq t O hs]
  simp only [written, List.append_assoc, List.drop_left]

theorem fragments_flatten (raw : List Byte) :
    ((groupTokens 0 (raw.map escapeByte)).map List.flatten).flatten = write_escaped raw := by
  rw [flatten_map_flatten, groupTokens_flatten, ← write_escaped_eq]

/-! ## Runs on buffers of `2^32` bytes and more -/

/-- The escaped form of `n` zero bytes: `n` octal escapes. -/
theorem write_escaped_replicate_zero (n : Nat) :
    write_escaped (List.replicate n 0) =
      (List.replicate n ([92, 48, 48, 48] : List Byte)).flatten := by
  induction n with
  | zero => rfl
  | succ n ih =>
    rw [List.replicate_succ, List.replicate_succ, write_escaped, ih, List.flatten_cons]
    rfl

theorem length_flatten_replicate_octal (n : Nat) :
    ((List.replicate n ([92, 48, 48, 48] : List Byte)).flatten).length = 4 * n := by
  induction n with
  | zero => rfl
  | succ n ih =>
    rw [List.replicate_succ, List.flatten_cons, List.length_append, ih]
    simp only [List.length_cons, List.length_nil]
    omega

/-- The escaped form of `n` letters `a`: the letters themselves. -/
theorem write_escaped_replicate_a (n : Nat) :
    write_escaped (List.replicate n 97) = List.replicate n 97 := by
  induction n with
  | zero => rfl
  | succ n ih =>
    rw [List.replicate_succ, write_escaped, ih]
    rfl

/-- When the length of the escaped buffer is a multiple of `2^32`, the bound
of the loop is 0: `EmitStringCPP` returns at once and writes the two
delimiters only. -/
theorem EmitStringCPP_zero (t : Table) (O : List Byte)
    (h : toUnsigned (write_escaped t.AggregateString).length = 0) :
    EmitStringCPP t O =
      { status := Status.returned,
        table := { t with AggregateString := write_escaped t.AggregateString },
        O := O ++ [32, 32, 32, 32, 34] ++ [34] } := by
  simp only [EmitStringCPP, h]
  rw [EmitStringCPP.loop]
  simp

/-- The text of the two delimiters has one fragment, the empty one. -/
theorem fragments_empty_literal :
    fragments ([32, 32, 32, 32, 34, 34] : List Byte) = some [[]] := by
  decide

theorem written_zero (t : Table) (O : List Byte)
    (h : toUnsigned (write_escaped t.AggregateString).length = 0) :
    written O (EmitStringCPP t O) = [32, 32, 32, 32, 34, 34] := by
  rw [EmitStringCPP_zero t O h]
  simp [written, List.append_assoc]

theorem charAt_ne_newline (s : List Byte) (hs : (10 : Byte) ∉ s) (i : Nat) :
    charAt s i ≠ 10 := by
  unfold charAt
  rw [List.getD_eq_getElem?_getD]
  cases h : s[i]? with
  | none => simp
  | some c =>
    simp only [Option.getD_some]
    rintro rfl
    exact hs (List.getElem?_mem h)

theorem joinFragments_cons_append (w g : List Byte) (gs : List (List Byte)) :
    joinFragments ((w ++ g) :: gs) = w ++ joinFragments (g :: gs) := by
  cases gs with
  | nil => rfl
  | cons g2 rest => simp [joinFragments, List.append_assoc]

theorem Segments_nil (cp : Nat) (hcp : cp ≤ 74) : Segments cp [] :=
  ⟨[], [], rfl, by simpa using hcp, by simp, by simp, by simp, by simp⟩

/-- The text of one iteration followed by the text of the rest of the run:
the separator when the counter exceeds 70, then the characters `w` of the
iteration. -/
theorem Segments_extend (cp : Nat) (hcp : cp ≤ 74) (w X : List Byte)
    (hnl : (10 : Byte) ∉ w)
    (hX : Segments ((if cp > 70 then 0 else cp) + w.length) X) :
    Segments cp ((if cp > 70 then separator else []) ++ w ++ X) := by
  obtain ⟨g, gs, hX, h1, h2, h3, h4, h5⟩ := hX
  have hwg : (10 : Byte) ∉ w ++ g := by
    intro h
    rcases List.mem_append.mp h with h | h
    · exact hnl h
    · exact h5 g (List.mem_cons_self _ _) h
  by_cases h : cp > 70
  · simp only [h, if_true] at h1 h2 ⊢
    refine ⟨[], (w ++ g) :: gs, ?_, by simpa using hcp, fun _ => by simpa using h, ?_, ?_, ?_⟩
    · rw [hX, joinFragments_nil_cons _ (by simp), joinFragments_cons_append]
      simp only [List.append_assoc]
    · intro f hf
      rcases List.mem_cons.mp hf with rfl | hf
      · simp only [List.length_append]; omega
      · exact h3 f hf
    · intro f hf
      cases gs with
      | nil => simp at hf
      | cons g2 rest =>
        rw [List.dropLast_cons₂, List.mem_cons] at hf
        rcases hf with rfl | hf
        · have := h2 (by simp)
          simp only [List.length_append]; omega
        · exact h4 f hf
    · intro f hf
      rcases List.mem_cons.mp hf with rfl | hf
      · simp
      · rcases List.mem_cons.mp hf with rfl | hf
        · exact hwg
        · exact h5 f (List.mem_cons_of_mem _ hf)
  · simp only [h, if_false] at h1 h2 ⊢
    refine ⟨w ++ g, gs, ?_, ?_, ?_, h3, h4, ?_⟩
    · rw [hX, joinFragments_cons_append]
      simp only [List.nil_append, List.append_assoc]
    · simp only [List.length_append]; omega
    · intro hgs
      have := h2 hgs
      simp only [List.length_append]; omega
    · intro f hf
      rcases List.mem_cons.mp hf with rfl | hf
      · exact hwg
      · exact h5 f (List.mem_cons_of_mem _ hf)

/-- The text the loop writes, however the run ends (at the bound, in an
`assert` or out of iterations), on a text without newline: it only appends to
the sink, and what it appends has the shape `Segments`. -/
theorem loop_segments (s : List Byte) (hs : (10 : Byte) ∉ s) (e : Nat) :
    ∀ (fuel i cp : Nat) (O : List Byte), cp ≤ 74 →
      ∃ X, (EmitStringCPP.loop s e fuel i cp O).2 = O ++ X ∧ Segments cp X := by
  intro fuel
  induction fuel with
  | zero =>
    intro i cp O hcp
    exact ⟨[], by simp [EmitStringCPP.loop], Segments_nil cp hcp⟩
  | succ fuel ih =>
    intro i cp O hcp
    have hcp1 : (if cp > 70 then 0 else cp) + 4 ≤ 74 := by
      by_cases h : cp > 70
      · simp only [h, if_true]; omega
      · simp only [h, if_false]; omega
    have hO : ∀ w : List Byte, (if cp > 70 then O ++ [34, 10, 32, 32, 32, 32, 34] else O) ++ w =
        O ++ ((if cp > 70 then [34, 10, 32, 32, 32, 32, 34] else []) ++ w) := by
      intro w
      by_cases h : cp > 70
      · simp only [h, if_true, List.append_assoc]
      · simp only [h, if_false, List.nil_append]
    have key : ∀ (w : List Byte) (out : List Byte), (10 : Byte) ∉ w → w.length ≤ 4 →
        (∃ X, out = ((if cp > 70 then O ++ [34, 10, 32, 32, 32, 32, 34] else O) ++ w) ++ X ∧
          Segments ((if cp > 70 then 0 else cp) + w.length) X) →
        ∃ X, out = O ++ X ∧ Segments cp X := by
      intro w out hw _ hX
      obtain ⟨X, h1, h2⟩ := hX
      have h3 := Segments_extend cp hcp w X hw h2
      rw [show separator = [34, 10, 32, 32, 32, 32, 34] from rfl] at h3
      refine ⟨(if cp > 70 then [34, 10, 32, 32, 32, 32, 34] else []) ++ w ++ X, ?_, h3⟩
      rw [h1, hO, List.append_assoc, List.append_assoc]
    have n0 := charAt_ne_newline s hs i
    have n1 := charAt_ne_newline s hs (toUnsigned (i + 1))
    have n2 := charAt_ne_newline s hs (toUnsigned (i + 2))
    have n3 := charAt_ne_newline s hs (toUnsigned (i + 3))
    rw [EmitStringCPP.loop]
    by_cases hie : i = e
    · simp only [hie, if_true]
      exact ⟨[], by simp, Segments_nil cp hcp⟩
    · simp only [hie, if_false, decide_eq_true_eq]
      by_cases hc : charAt s i = 92
      · simp only [hc, ne_eq, not_true_eq_false, if_false]
        by_cases ha : toUnsigned (i + 1) < s.length
        · simp only [ha, not_true_eq_false, if_false]
          by_cases hd : isdigit (charAt s (toUnsigned (i + 1))) = true
          · simp only [hd, if_true]
            by_cases hdd : isdigit (charAt s (toUnsigned (i + 2))) = true ∧
                isdigit (charAt s (toUnsigned (i + 3))) = true
            · simp only [hdd, and_self, not_true_eq_false, if_false]
              apply key [92, charAt s (toUnsigned (i + 1)), charAt s (toUnsigned (i + 2)),
                charAt s (toUnsigned (i + 3))]
              · simp only [List.mem_cons, List.mem_singleton, List.mem_nil_iff, or_false, not_or]
                exact ⟨by decide, fun h => n1 h.symm, fun h => n2 h.symm, fun h => n3 h.symm⟩
              · simp
              · obtain ⟨X, h1, h2⟩ := ih (toUnsigned (i + 4))
                  ((if cp > 70 then 0 else cp) + 1 + 3)
                  ((if cp > 70 then O ++ [34, 10, 32, 32, 32, 32, 34] else O) ++ [92] ++
                    [charAt s (toUnsigned (i + 1)), charAt s (toUnsigned (i + 2)),
                      charAt s (toUnsigned (i + 3))]) (by omega)
                refine ⟨X, ?_, ?_⟩
                · rw [h1]
                  simp only [List.append_assoc, List.cons_append, List.nil_append]
                · simpa only [List.length_cons, List.length_nil, Nat.add_assoc] using h2
            · simp only [hdd, not_false_eq_true, if_true]
              apply key [92]
              · decide
              · simp
              · exact ⟨[], by simp, Segments_nil _ (by
                  simp only [List.length_cons, List.length_nil]; omega)⟩
          · simp only [hd, Bool.false_eq_true, if_false]
            apply key [92, charAt s (toUnsigned (i + 1))]
            · simp only [List.mem_cons, List.mem_singleton, List.mem_nil_iff, or_false, not_or]
              exact ⟨by decide, fun h => n1 h.symm⟩
            · simp
            · obtain ⟨X, h1, h2⟩ := ih (toUnsigned (i + 2))
                ((if cp > 70 then 0 else cp) + 1 + 1)
                ((if cp > 70 then O ++ [34, 10, 32, 32, 32, 32, 34] else O) ++ [92] ++
                  [charAt s (toUnsigned (i + 1))]) (by omega)
              refine ⟨X, ?_, ?_⟩
              · rw [h1]
                simp only [List.append_assoc, List.cons_append, List.nil_append]
              · simpa only [List.length_cons, List.length_nil, Nat.add_assoc] using h2
        · simp only [ha, not_false_eq_true, if_true]
          apply key [92]
          · decide
          · simp
          · exact ⟨[], by simp, Segments_nil _ (by
              simp only [List.length_cons, List.length_nil]; omega)⟩
      · simp only [hc, ne_eq, not_false_eq_true, if_true]
        apply key [charAt s i]
        · simp only [List.mem_singleton]
          exact fun h => n0 h.symm
        · simp
        · obtain ⟨X, h1, h2⟩ := ih (toUnsigned (i + 1)) ((if cp > 70 then 0 else cp) + 1)
            ((if cp > 70 then O ++ [34, 10, 32, 32, 32, 32, 34] else O) ++ [charAt s i]) (by omega)
          exact ⟨X, h1, by simpa only [List.length_cons, List.length_nil] using h2⟩
/-- The escaped buffer holds no newline. -/
theorem no_newline_write_escaped (raw : List Byte) : (10 : Byte) ∉ write_escaped raw := by
  induction raw with
  | nil => simp [write_escaped]
  | cons c raw ih =>
    rw [write_escaped]
    intro h
    rcases List.mem_append.mp h with h | h
    · exact isToken_no_newline _ (isToken_escapeByte c) h
    · exact ih h

/-- The result of `EmitStringCPP` in terms of the result of its loop: the
closing quote is written when the loop returns. -/
theorem EmitStringCPP_run (t : Table) (O : List Byte) (st : Status) (out : List Byte)
    (h : EmitStringCPP.loop (write_escaped t.AggregateString)
      (toUnsigned (write_escaped t.AggregateString).length)
      ((write_escaped t.AggregateString).length + 1) 0 0 (O ++ [32, 32, 32, 32, 34]) =
      (st, out)) :
    EmitStringCPP t O =
      { status := st, table := { t with AggregateString := write_escaped t.AggregateString },
        O := out ++ (if st = Status.returned then [34] else []) } := by
  simp only [EmitStringCPP, h]
  cases st <;> simp

/-- The text written by `EmitStringCPP` on any table, however the run ends:
the opening delimiter, at least one fragment, the fragments being joined by the
separator and free of newlines, and the closing quote when the call returns.
Every fragment holds at most 74 characters and every fragment but the last more
than 70. -/
theorem EmitStringCPP_segments (t : Table) (O : List Byte) :
    ∃ frs, frs ≠ [] ∧
      written O (EmitStringCPP t O) =
        [32, 32, 32, 32, 34] ++ joinFragments frs ++
          (if (EmitStringCPP t O).status = Status.returned then [34] else []) ∧
      (∀ f ∈ frs, (10 : Byte) ∉ f) ∧ (∀ f ∈ frs, f.length ≤ 74) ∧
      ∀ f ∈ frs.dropLast, 70 < f.length := by
  obtain ⟨X, hX, g, gs, hj, h1, h2, h3, h4, h5⟩ :=
    loop_segments (write_escaped t.AggregateString) (no_newline_write_escaped _)
      (toUnsigned (write_escaped t.AggregateString).length)
      ((write_escaped t.AggregateString).length + 1) 0 0 (O ++ [32, 32, 32, 32, 34])
      (by omega)
  have hrun := EmitStringCPP_run t O _ _ (Prod.mk.eta).symm
  refine ⟨g :: gs, by simp, ?_, h5, ?_, ?_⟩
  · rw [hrun, hX, hj]
    simp only [written, List.append_assoc, List.drop_left]
  · intro f hf
    rcases List.mem_cons.mp hf with rfl | hf
    · omega
    · exact h3 f hf
  · intro f hf
    cases gs with
    | nil => simp at hf
    | cons g2 rest =>
      rw [List.dropLast_cons₂, List.mem_cons] at hf
      rcases hf with rfl | hf
      · have := h2 (by simp)
        omega
      · exact h4 f hf

/-- The buffer of the table reached from a fresh one by interning one string
without terminator is that string. -/
theorem reached_buffer (PL : PrinterLanguage) (raw : List Byte) :
    (internAll (Table.mk1 PL) [(raw, false)]).2.AggregateString = raw := by
  rw [internAll_one]
  simp [block]

/-- The escaped form of `2^30` zero bytes has `2^32` bytes, which `unsigned`
turns into the bound 0. -/
theorem zero_bound (PL : PrinterLanguage) (n : Nat) (hn : 4 * n = 4294967296) :
    toUnsigned (write_escaped (internAll (Table.mk1 PL)
      [(List.replicate n 0, false)]).2.AggregateString).length = 0 := by
  rw [reached_buffer, write_escaped_replicate_zero, length_flatten_replicate_octal, hn]
  decide

/-- Claim C8 fails as stated: for the buffer of `2^30` zero bytes, whose
escaped form has `2^32` bytes, `EmitStringCPP` returns after writing the two
delimiters only; the text, read back, is the empty buffer. -/
theorem C8_round_trip_counterexample :
    ((fragments (written [] (EmitStringCPP (internAll (Table.mk1 PrinterLanguage.PRINTER_LANG_CPP)
      [(List.replicate 1073741824 0, false)]).2 []))).map List.flatten).bind unescape =
      some [] ∧
    (internAll (Table.mk1 PrinterLanguage.PRINTER_LANG_CPP)
      [(List.replicate 1073741824 0, false)]).2.AggregateString.length = 1073741824 := by
  constructor
  · rw [written_zero _ _ (zero_bound PrinterLanguage.PRINTER_LANG_CPP 1073741824 (by decide)),
      fragments_empty_literal]
    rfl
  · rw [reached_buffer, List.length_replicate]

/-- Claim C8, amended (strategy A round trip). For every buffer whose escaped
form is shorter than `2^32` bytes, `EmitStringCPP` returns, it only appends to
the sink, and the text it wrote, split into its fragments (leading spaces and
delimiters removed), joined and unescaped, is the raw buffer, byte for
byte. -/
theorem C8_round_trip (t : Table) (O : List Byte)
    (hs : (write_escaped t.AggregateString).length < 4294967296) :
    (EmitStringCPP t O).status = Status.returned ∧
    (EmitStringCPP t O).O = O ++ written O (EmitStringCPP t O) ∧
    ((fragments (written O (EmitStringCPP t O))).map List.flatten).bind unescape =
      some t.AggregateString := by
  refine ⟨EmitStringCPP_status t O hs, EmitStringCPP_O t O hs, ?_⟩
  rw [fragments_written t O hs, Option.map_some', Option.some_bind, flatten_map_flatten,
    groupTokens_flatten, ← write_escaped_eq, unescape_write_escaped]

theorem C8_round_trip_witness :
    (write_escaped (internAll Table.mk0
      [([102, 111, 111], true), ([34, 92, 10], true)]).2.AggregateString).length <
      4294967296 ∧
    ((fragments (written [7] (EmitStringCPP (internAll Table.mk0
      [([102, 111, 111], true), ([34, 92, 10], true)]).2 [7]))).map List.flatten).bind
      unescape =
      some (internAll Table.mk0
        [([102, 111, 111], true), ([34, 92, 10], true)]).2.AggregateString :=
  ⟨by decide,
    (C8_round_trip (internAll Table.mk0 [([102, 111, 111], true), ([34, 92, 10], true)]).2 [7]
      (by decide)).2.2⟩

/-- Claim C10 fails as stated: after interning the string of 71 letters `a`
with its terminator, `EmitStringCPP` writes a first fragment of 71 characters,
which is more than 70. -/
theorem C10_fragment_width_counterexample :
    fragments (written []
        (EmitStringCPP (GetOrAddStringOffset Table.mk0 (List.replicate 71 97) true).2 [])) =
      some [List.replicate 71 97, [92, 48, 48, 48]] ∧
    ¬ (List.replicate 71 97 : List Byte).length ≤ 70 := by
  decide

/-- Claim C10, amended. For every buffer, every fragment written by
`EmitStringCPP` holds at most 74 characters, and every fragment but the last
holds more than 70: the delimiter pair is written before a token once the
counter exceeds 70. In full: the text written is the opening delimiter, at
least one fragment, the fragments being free of newlines and joined by the
separator, and the closing quote when the call returns (a run that does not
return leaves the last fragment open); when the call returns, these fragments
are the ones the text parses into; and the call returns whenever the escaped
buffer is shorter than `2^32` bytes. -/
theorem C10_fragment_width (t : Table) (O : List Byte) :
    (∃ frs, frs ≠ [] ∧
      written O (EmitStringCPP t O) =
        [32, 32, 32, 32, 34] ++ joinFragments frs ++
          (if (EmitStringCPP t O).status = Status.returned then [34] else []) ∧
      (∀ f ∈ frs, (10 : Byte) ∉ f) ∧
      (∀ f ∈ frs, f.length ≤ 74) ∧ (∀ f ∈ frs.dropLast, 70 < f.length) ∧
      ((EmitStringCPP t O).status = Status.returned →
        fragments (written O (EmitStringCPP t O)) = some frs)) ∧
    ((write_escaped t.AggregateString).length < 4294967296 →
      (EmitStringCPP t O).status = Status.returned) := by
  obtain ⟨frs, h0, h1, h2, h3, h4⟩ := EmitStringCPP_segments t O
  refine ⟨⟨frs, h0, h1, h2, h3, h4, ?_⟩, EmitStringCPP_status t O⟩
  intro hst
  rw [h1, hst, if_pos rfl]
  exact fragments_joinFragments frs h0 h2

theorem C10_fragment_width_witness :
    (write_escaped (internAll Table.mk0 [([102, 111, 111], true), ([98, 97, 114], true)]).2.AggregateString).length < 4294967296 ∧
    (EmitStringCPP (internAll Table.mk0 [([102, 111, 111], true), ([98, 97, 114], true)]).2 []).status = Status.returned :=
  ⟨by decide, (C10_fragment_width (internAll Table.mk0 [([102, 111, 111], true), ([98, 97, 114], true)]).2 []).2 (by decide)⟩

/-! ## The iterations of the loop -/

/-- Two calls of `EmitStringCPP` on a buffer of `n` letters `a`, `n` being a
multiple of `2^32`: the second call writes the two delimiters only, while the
twice-escaped buffer holds `n` characters. -/
theorem double_a (PL : PrinterLanguage) (n : Nat) (hn : toUnsigned n = 0) :
    written [] (EmitStringCPP (EmitStringCPP (internAll (Table.mk1 PL)
      [(List.replicate n 97, false)]).2 []).table []) = [32, 32, 32, 32, 34, 34] ∧
    fragments (written [] (EmitStringCPP (EmitStringCPP (internAll (Table.mk1 PL)
      [(List.replicate n 97, false)]).2 []).table [])) = some [[]] ∧
    (write_escaped (write_escaped (internAll (Table.mk1 PL)
      [(List.replicate n 97, false)]).2.AggregateString)).length = n := by
  have hb := reached_buffer PL (List.replicate n 97)
  have ht : (EmitStringCPP (internAll (Table.mk1 PL)
      [(List.replicate n 97, false)]).2 []).table.AggregateString = List.replicate n 97 := by
    rw [EmitStringCPP_table]
    show write_escaped (internAll (Table.mk1 PL)
      [(List.replicate n 97, false)]).2.AggregateString = List.replicate n 97
    rw [hb, write_escaped_replicate_a]
  have hw := written_zero (EmitStringCPP (internAll (Table.mk1 PL)
      [(List.replicate n 97, false)]).2 []).table []
    (by rw [ht, write_escaped_replicate_a, List.length_replicate]; exact hn)
  refine ⟨hw, ?_, ?_⟩
  · rw [hw]
    exact fragments_empty_literal
  · rw [hb, write_escaped_replicate_a, write_escaped_replicate_a, List.length_replicate]

/-- Claim C13 fails as stated: for the raw buffer of `2^32` letters `a`, whose
escaped and twice-escaped forms are the buffer itself, the second call of
`EmitStringCPP` writes four spaces and two double quotes, the rendering of the
empty text: its only fragment is empty, while the twice-escaped buffer holds
`2^32` characters. -/
theorem C13_destructive_on_buffer_only_counterexample :
    written [] (EmitStringCPP (EmitStringCPP (internAll (Table.mk1 PrinterLanguage.PRINTER_LANG_CPP)
      [(List.replicate 4294967296 97, false)]).2 []).table []) = [32, 32, 32, 32, 34, 34] ∧
    fragments (written [] (EmitStringCPP (EmitStringCPP (internAll (Table.mk1 PrinterLanguage.PRINTER_LANG_CPP)
      [(List.replicate 4294967296 97, false)]).2 []).table [])) = some [[]] ∧
    (write_escaped (write_escaped (internAll (Table.mk1 PrinterLanguage.PRINTER_LANG_CPP)
      [(List.replicate 4294967296 97, false)]).2.AggregateString)).length = 4294967296 :=
  double_a PrinterLanguage.PRINTER_LANG_CPP 4294967296 (by decide)

/-- Claim C13, amended (`EmitStringCPP` is destructive on the buffer only).
However the call ends, afterwards the stored buffer is the escaped form of the
old one and `StringOffset` and `PL` are unchanged, and a second call leaves the
twice-escaped text in the buffer. The call returns when the escaped buffer is
shorter than `2^32` bytes. When the twice-escaped buffer is shorter than `2^32`
bytes, the second call returns and writes the strategy-A rendering of the
twice-escaped raw buffer: opening delimiter, fragments whose concatenation is
`write_escaped (write_escaped raw)`, closing quote. -/
theorem C13_destructive_on_buffer_only (t : Table) (O O2 : List Byte) :
    (EmitStringCPP t O).table.AggregateString = write_escaped t.AggregateString ∧
    (EmitStringCPP t O).table.StringOffset = t.StringOffset ∧
    (EmitStringCPP t O).table.PL = t.PL ∧
    (EmitStringCPP (EmitStringCPP t O).table O2).table.AggregateString =
      write_escaped (write_escaped t.AggregateString) ∧
    ((write_escaped t.AggregateString).length < 4294967296 →
      (EmitStringCPP t O).status = Status.returned) ∧
    ((write_escaped (write_escaped t.AggregateString)).length < 4294967296 →
      (EmitStringCPP (EmitStringCPP t O).table O2).status = Status.returned ∧
      ∃ frs, fragments (written O2 (EmitStringCPP (EmitStringCPP t O).table O2)) = some frs ∧
        written O2 (EmitStringCPP (EmitStringCPP t O).table O2) =
          [32, 32, 32, 32, 34] ++ joinFragments frs ++ [34] ∧
        frs.flatten = write_escaped (write_escaped t.AggregateString)) := by
  have h1 : (EmitStringCPP t O).table.AggregateString = write_escaped t.AggregateString := by
    rw [EmitStringCPP_table]
  refine ⟨h1, by rw [EmitStringCPP_table], by rw [EmitStringCPP_table],
    by rw [EmitStringCPP_table, h1], EmitStringCPP_status t O, ?_⟩
  intro hs2
  have hs2b : (write_escaped (EmitStringCPP t O).table.AggregateString).length < 4294967296 := by
    rw [h1]; exact hs2
  refine ⟨EmitStringCPP_status _ O2 hs2b, _, fragments_written _ O2 hs2b,
    written_EmitStringCPP _ O2 hs2b, ?_⟩
  rw [fragments_flatten, h1]

theorem C13_destructive_on_buffer_only_witness :
    (write_escaped (write_escaped (internAll Table.mk0
      [([102, 0, 111], true)]).2.AggregateString)).length < 4294967296 ∧
    (EmitStringCPP (EmitStringCPP (internAll Table.mk0
      [([102, 0, 111], true)]).2 []).table [7]).status = Status.returned ∧
    ∃ frs, fragments (written [7] (EmitStringCPP (EmitStringCPP (internAll Table.mk0
        [([102, 0, 111], true)]).2 []).table [7])) = some frs ∧
      written [7] (EmitStringCPP (EmitStringCPP (internAll Table.mk0
        [([102, 0, 111], true)]).2 []).table [7]) =
        [32, 32, 32, 32, 34] ++ joinFragments frs ++ [34] ∧
      frs.flatten = write_escaped (write_escaped (internAll Table.mk0
        [([102, 0, 111], true)]).2.AggregateString) :=
  ⟨by decide,
    (C13_destructive_on_buffer_only (internAll Table.mk0 [([102, 0, 111], true)]).2 []
      [7]).2.2.2.2.2 (by decide)⟩

/-- The run on a buffer of `n` zero bytes whose escaped form has a multiple of
`2^32` bytes: the text written is the two delimiters, its only fragment is
empty, while the escaped buffer holds `4 * n` characters. -/
theorem zero_run (PL : PrinterLanguage) (n : Nat) (hn : 4 * n = 4294967296) :
    written [] (EmitStringCPP (internAll (Table.mk1 PL)
      [(List.replicate n 0, false)]).2 []) = [32, 32, 32, 32, 34, 34] ∧
    fragments (written [] (EmitStringCPP (internAll (Table.mk1 PL)
      [(List.replicate n 0, false)]).2 [])) = some [[]] ∧
    (write_escaped (internAll (Table.mk1 PL)
      [(List.replicate n 0, false)]).2.AggregateString).length = 4294967296 ∧
    (internAll (Table.mk1 PL) [(List.replicate n 0, false)]).2.AggregateString.length = n := by
  have hw := written_zero (internAll (Table.mk1 PL) [(List.replicate n 0, false)]).2 []
    (zero_bound PL n hn)
  refine ⟨hw, ?_, ?_, ?_⟩
  · rw [hw]
    exact fragments_empty_literal
  · rw [reached_buffer, write_escaped_replicate_zero, length_flatten_replicate_octal, hn]
  · rw [reached_buffer, List.length_replicate]

theorem flatten_length_cons (tok : List Byte) (g : List (List Byte)) :
    (List.flatten (tok :: g)).length = tok.length + (List.flatten g).length := by
  simp

/-- The groups never exceed 74 characters: a group is closed as soon as the
counter exceeds 70, and a token is at most 4 characters wide. -/
theorem groupTokens_upper (toks : List (List Byte)) (hall : ∀ tok ∈ toks, tok.length ≤ 4)
    (cp : Nat) (hcp : cp ≤ 74) :
    ∃ g gs, groupTokens cp toks = g :: gs ∧ (List.flatten g).length + cp ≤ 74 ∧
      ∀ g2 ∈ gs, (List.flatten g2).length ≤ 74 := by
  induction toks generalizing cp with
  | nil => exact ⟨[], [], rfl, by simpa using hcp, by simp⟩
  | cons tok toks ih =>
    have htok := hall tok (List.mem_cons_self _ _)
    have hrest : ∀ x ∈ toks, x.length ≤ 4 := fun x hx => hall x (List.mem_cons_of_mem _ hx)
    by_cases h : cp > 70
    · obtain ⟨g, gs, hG, h1, h2⟩ := ih hrest tok.length (by omega)
      refine ⟨[], consHead tok (groupTokens tok.length toks), by simp [groupTokens, h],
        by simpa using hcp, ?_⟩
      rw [hG]
      intro g2 hg2
      simp only [consHead, List.mem_cons] at hg2
      rcases hg2 with rfl | hg2
      · rw [flatten_length_cons]; omega
      · exact h2 g2 hg2
    · obtain ⟨g, gs, hG, h1, h2⟩ := ih hrest (cp + tok.length) (by omega)
      refine ⟨tok :: g, gs, by simp [groupTokens, h, hG, consHead], ?_, h2⟩
      rw [flatten_length_cons]; omega

/-- Every group but the last holds more than 70 characters, the counter at its
start included for the first one. -/
theorem groupTokens_lower (toks : List (List Byte)) (cp : Nat) :
    ∃ g gs, groupTokens cp toks = g :: gs ∧ (gs ≠ [] → 70 < (List.flatten g).length + cp) ∧
      ∀ g2 ∈ gs.dropLast, 70 < (List.flatten g2).length := by
  induction toks generalizing cp with
  | nil => exact ⟨[], [], rfl, by simp, by simp⟩
  | cons tok toks ih =>
    by_cases h : cp > 70
    · obtain ⟨g, gs, hG, h1, h2⟩ := ih tok.length
      refine ⟨[], consHead tok (groupTokens tok.length toks), by simp [groupTokens, h],
        fun _ => by simpa using h, ?_⟩
      rw [hG]
      intro g2 hg2
      simp only [consHead] at hg2
      cases gs with
      | nil => simp at hg2
      | cons g3 gs3 =>
        rw [List.dropLast_cons₂, List.mem_cons] at hg2
        rcases hg2 with rfl | hg2
        · rw [flatten_length_cons]
          have := h1 (by simp)
          omega
        · exact h2 g2 hg2
    · obtain ⟨g, gs, hG, h1, h2⟩ := ih (cp + tok.length)
      refine ⟨tok :: g, gs, by simp [groupTokens, h, hG, consHead], ?_, h2⟩
      intro hgs
      rw [flatten_length_cons]
      have := h1 hgs
      omega

/-- No group is empty, except the first one when there is no token at all or
when the counter already exceeds 70. -/
theorem groupTokens_nonempty (toks : List (List Byte)) (cp : Nat) :
    ∃ g gs, groupTokens cp toks = g :: gs ∧ (∀ g2 ∈ gs, g2 ≠ []) ∧
      (toks ≠ [] → cp ≤ 70 → g ≠ []) := by
  induction toks generalizing cp with
  | nil => exact ⟨[], [], rfl, by simp, by simp⟩
  | cons tok toks ih =>
    by_cases h : cp > 70
    · obtain ⟨g, gs, hG, h1, _⟩ := ih tok.length
      refine ⟨[], (tok :: g) :: gs, by simp [groupTokens, h, hG, consHead], ?_, ?_⟩
      · intro g2 hg2
        rcases List.mem_cons.mp hg2 with rfl | hg2
        · simp
        · exact h1 g2 hg2
      · intro _ hcp; omega
    · obtain ⟨g, gs, hG, h1, _⟩ := ih (cp + tok.length)
      exact ⟨tok :: g, gs, by simp [groupTokens, h, hG, consHead], h1, fun _ _ => by simp⟩

/-- The width of the escaped form of a byte: 2 for the four two-character
escapes, 1 for any other printable character, 4 for an octal escape. -/
theorem escapeByte_length (c : Byte) :
    (escapeByte c).length =
      if c = 92 ∨ c = 9 ∨ c = 10 ∨ c = 34 then 2 else if isPrint c = true then 1 else 4 := by
  revert c; decide

/-- Claim C19 fails as stated: for the raw buffer of `2^30` zero bytes, which
is not empty, the text written by `EmitStringCPP` has one fragment, and that
fragment is empty. -/
theorem C19_fragment_width_bounds_counterexample :
    fragments (written [] (EmitStringCPP (internAll (Table.mk1 PrinterLanguage.PRINTER_LANG_CPP)
      [(List.replicate 1073741824 0, false)]).2 [])) = some [[]] ∧
    (internAll (Table.mk1 PrinterLanguage.PRINTER_LANG_CPP)
      [(List.replicate 1073741824 0, false)]).2.AggregateString.length = 1073741824 :=
  ⟨(zero_run PrinterLanguage.PRINTER_LANG_CPP 1073741824 (by decide)).2.1,
    (zero_run PrinterLanguage.PRINTER_LANG_CPP 1073741824 (by decide)).2.2.2⟩

/-- Claim C19, amended (actual fragment widths). First part: an iteration of
the loop that starts at the token of a byte, away from the bound and with the
token below position `2^32`, writes the delimiter pair before the token exactly
when the counter exceeds 70, restarting the counter, writes the token, and
advances the counter by the width of the token, which is 1 for a plain
character, 2 for a two-character escape and 4 for an octal escape. Second part:
for every buffer whose escaped form is shorter than `2^32` bytes, every
fragment but the last holds between 71 and 74 characters, every fragment holds
at most 74, and when the buffer is not empty no fragment is empty. -/
theorem C19_fragment_width_bounds (t : Table) (O : List Byte)
    (hs : (write_escaped t.AggregateString).length < 4294967296) :
    (∀ (pre post : List Byte) (c : Byte) (e fuel cp : Nat) (O1 : List Byte),
      pre.length ≠ e → pre.length + (escapeByte c).length ≤ 4294967296 →
      EmitStringCPP.loop (pre ++ (escapeByte c ++ post)) e (fuel + 1) pre.length cp O1 =
        EmitStringCPP.loop (pre ++ (escapeByte c ++ post)) e fuel
          (toUnsigned (pre.length + (escapeByte c).length))
          ((if cp > 70 then 0 else cp) + (escapeByte c).length)
          ((if cp > 70 then O1 ++ separator else O1) ++ escapeByte c)) ∧
    (∀ c : Byte, (escapeByte c).length =
      if c = 92 ∨ c = 9 ∨ c = 10 ∨ c = 34 then 2 else if isPrint c = true then 1 else 4) ∧
    ∃ frs, fragments (written O (EmitStringCPP t O)) = some frs ∧
      (∀ f ∈ frs.dropLast, 71 ≤ f.length ∧ f.length ≤ 74) ∧
      (∀ f ∈ frs, f.length ≤ 74) ∧
      (t.AggregateString ≠ [] → ∀ f ∈ frs, f ≠ []) := by
  refine ⟨fun pre post c e fuel cp O1 hne hw =>
      loop_step pre _ post (isToken_escapeByte c) e fuel cp O1 hne hw,
    escapeByte_length, ?_⟩
  have htok : ∀ tok ∈ t.AggregateString.map escapeByte, isToken tok = true := by
    intro tok htok
    obtain ⟨c, _, rfl⟩ := List.mem_map.mp htok
    exact isToken_escapeByte c
  have hw : ∀ tok ∈ t.AggregateString.map escapeByte, tok.length ≤ 4 :=
    fun tok h => (isToken_length _ (htok tok h)).2
  obtain ⟨g, gs, hG, h1, h2⟩ := groupTokens_upper _ hw 0 (by omega)
  obtain ⟨g', gs', hG', h1', h2'⟩ := groupTokens_lower (t.AggregateString.map escapeByte) 0
  obtain ⟨g'', gs'', hG'', h1'', h2''⟩ :=
    groupTokens_nonempty (t.AggregateString.map escapeByte) 0
  have hupper : ∀ f ∈ (groupTokens 0 (t.AggregateString.map escapeByte)).map List.flatten,
      f.length ≤ 74 := by
    intro f hf
    rw [hG] at hf
    simp only [List.map_cons, List.mem_cons, List.mem_map] at hf
    rcases hf with rfl | ⟨g2, hg2, rfl⟩
    · omega
    · exact h2 g2 hg2
  refine ⟨_, fragments_written t O hs, ?_, hupper, ?_⟩
  · intro f hf
    refine ⟨?_, hupper f (List.dropLast_subset _ hf)⟩
    rw [hG', ← List.map_dropLast] at hf
    obtain ⟨g2, hg2, rfl⟩ := List.mem_map.mp hf
    cases gs' with
    | nil => simp at hg2
    | cons g3 gs3 =>
      rw [List.dropLast_cons₂, List.mem_cons] at hg2
      rcases hg2 with rfl | hg2
      · have := h1' (by simp)
        omega
      · have := h2' g2 hg2
        omega
  · intro hne f hf
    obtain ⟨grp, hgrp, rfl⟩ := List.mem_map.mp hf
    have hgne : grp ≠ [] := by
      rw [hG''] at hgrp
      rcases List.mem_cons.mp hgrp with rfl | hgrp
      · exact h2'' (by simpa using hne) (by omega)
      · exact h1'' grp hgrp
    obtain ⟨tok, rest, rfl⟩ := List.exists_cons_of_ne_nil hgne
    have hmem := groupTokens_mem _ _ _ hgrp tok (List.mem_cons_self _ _)
    have hlen := (isToken_length _ (htok tok hmem)).1
    intro hnil
    have := congrArg List.length hnil
    simp only [List.flatten_cons, List.length_append, List.length_nil] at this
    omega

theorem C19_fragment_width_bounds_witness :
    (write_escaped (internAll Table.mk0 [([102, 111, 111], true), ([98, 97, 114], true)]).2.AggregateString).length < 4294967296 ∧
    ∃ frs, fragments (written [] (EmitStringCPP (internAll Table.mk0 [([102, 111, 111], true), ([98, 97, 114], true)]).2 [])) = some frs ∧
      (∀ f ∈ frs.dropLast, 71 ≤ f.length ∧ f.length ≤ 74) ∧
      (∀ f ∈ frs, f.length ≤ 74) ∧
      ((internAll Table.mk0 [([102, 111, 111], true), ([98, 97, 114], true)]).2.AggregateString ≠ [] → ∀ f ∈ frs, f ≠ []) :=
  ⟨by decide, (C19_fragment_width_bounds (internAll Table.mk0 [([102, 111, 111], true), ([98, 97, 114], true)]).2 [] (by decide)).2.2⟩

/-! ## EmitCharArray -/

/-- The loop of `EmitCharArray`, started at the byte of index `i` with the
counter at `i mod 15`, appends the items of the remaining bytes. -/
theorem EmitCharArray_loop_eq (bs : List Byte) (i Count : Nat) (O : List Byte)
    (hC : Count = i % 15) :
    EmitCharArray.loop bs Count O =
      O ++ ((bs.enumFrom i).map (fun p => charArrayItem p.1 p.2)).flatten := by
  induction bs generalizing i Count O with
  | nil => simp [EmitCharArray.loop]
  | cons b bs ih =>
    rw [EmitCharArray.loop]
    by_cases h : Count + 1 > 14
    · have hm : (i + 1) % 15 = 0 := by omega
      simp only [h, if_true]
      rw [ih (i + 1) 0 _ (by omega)]
      simp [List.enumFrom_cons, charArrayItem, hm, List.append_assoc]
    · have hm : ¬ (i + 1) % 15 = 0 := by omega
      simp only [h, if_false]
      rw [ih (i + 1) (Count + 1) _ (by omega)]
      simp [List.enumFrom_cons, charArrayItem, hm, List.append_assoc]

/-- Claim C14 (output format of `EmitCharArray`). For every buffer without a
closing parenthesis, `EmitCharArray` returns, leaves the table as it was, and
appends to the sink exactly one space, then for each byte in order space,
single quote, the escaped byte, single quote, comma, followed by newline and
space exactly when the number of bytes written so far is a multiple of 15, and
finally one newline. -/
theorem C14_EmitCharArray_format (t : Table) (O : List Byte)
    (h : (41 : Byte) ∉ t.AggregateString) :
    EmitCharArray t O =
      { status := Status.returned, table := t, O := O ++ charArrayText t.AggregateString } := by
  rw [EmitCharArray, if_neg h, EmitCharArray_loop_eq _ 0 0 _ rfl]
  simp [charArrayText, List.enum, List.append_assoc]

theorem C14_EmitCharArray_format_witness :
    (41 : Byte) ∉ (GetOrAddStringOffset Table.mk0 [97, 98] true).2.AggregateString ∧
    EmitCharArray (GetOrAddStringOffset Table.mk0 [97, 98] true).2 [] =
      { status := Status.returned, table := (GetOrAddStringOffset Table.mk0 [97, 98] true).2,
        O := [] ++ charArrayText (GetOrAddStringOffset Table.mk0 [97, 98] true).2.AggregateString } :=
  ⟨by decide, C14_EmitCharArray_format _ [] (by decide)⟩

/-- Claim C15 (the precondition of `EmitCharArray`). The assertion at the head
of `EmitCharArray` fails exactly when the buffer holds a closing parenthesis;
it then fails before anything is written, the sink and the table being what
they were; for a buffer without closing parenthesis the operation returns. -/
theorem C15_EmitCharArray_precondition (t : Table) (O : List Byte) :
    ((EmitCharArray t O).status =
        Status.assertion "can't emit raw string with closing parens" ↔
      (41 : Byte) ∈ t.AggregateString) ∧
    ((41 : Byte) ∈ t.AggregateString →
      (EmitCharArray t O).O = O ∧ (EmitCharArray t O).table = t) ∧
    ((41 : Byte) ∉ t.AggregateString → (EmitCharArray t O).status = Status.returned) := by
  by_cases h : (41 : Byte) ∈ t.AggregateString
  · simp [EmitCharArray, h]
  · simp [EmitCharArray, h]

theorem C15_EmitCharArray_precondition_witness :
    (EmitCharArray (GetOrAddStringOffset Table.mk0 [40, 41] true).2 [7]).O = [7] ∧
    (EmitCharArray (GetOrAddStringOffset Table.mk0 [40] true).2 [7]).status = Status.returned :=
  ⟨((C15_EmitCharArray_precondition (GetOrAddStringOffset Table.mk0 [40, 41] true).2 [7]).2.1
      (by decide)).1,
   (C15_EmitCharArray_precondition (GetOrAddStringOffset Table.mk0 [40] true).2 [7]).2.2
      (by decide)⟩

/-- Claim C16 fails on the code for the single quote. After interning the
one-character string made of a single quote, `EmitCharArray` returns and writes
for that byte the token of three single quotes, which is not a character
literal; for every byte other than the single quote the token between the
space and the comma reads back as a character literal that denotes the
byte. -/
theorem C16_char_literal_single_quote :
    EmitCharArray (GetOrAddStringOffset Table.mk0 [39] true).2 [] =
      { status := Status.returned, table := (GetOrAddStringOffset Table.mk0 [39] true).2,
        O := [32, 32, 39, 39, 39, 44, 32, 39, 92, 48, 48, 48, 39, 44, 10] } ∧
    [39] ++ write_escaped [39] ++ [39] = ([39, 39, 39] : List Byte) ∧
    readCharLiteral ([39, 39, 39] : List Byte) = none ∧
    ∀ b : Byte, readCharLiteral ([39] ++ write_escaped [b] ++ [39]) =
      if b = 39 then none else some b := by
  refine ⟨by decide, by decide, by decide, by decide⟩

end StringToOffsetTable
